import Mathlib

/-!
Verification development for the pptx package-merging engine
(`pptx_merger.py`): a shallow embedding of its data model and operations,
with theorems about name allocation, content-type merging, relationship-id
allocation, the recursive dependency copier and the merge orchestrator.

Strings are modelled as `List Char`; machine-level details that the engine
relies on (Python `int()` parsing, `os.path` / `pathlib` path arithmetic,
filesystem name resolution) are embedded explicitly below.
-/

set_option autoImplicit false

namespace PptxMerger

/-- Strings of the embedding: plain lists of characters. -/
abbrev Str := List Char

/-- Fuel-driven core of decimal rendering; correct whenever `n ≤ fuel`
(each division by ten strictly shrinks `n`, so `n` itself is enough
fuel). -/
def ntcGo : Nat → Nat → Str
  | 0, n => [Char.ofNat (48 + n % 10)]
  | f + 1, n =>
    if n < 10 then [Char.ofNat (48 + n)]
    else ntcGo f (n / 10) ++ [Char.ofNat (48 + n % 10)]

/-- Decimal digit characters of a natural number, most significant first
(the digits Python's `str`/f-string formatting produces). -/
def natToChars (n : Nat) : Str := ntcGo n n

/-- Numeric value of a digit character. -/
def digitVal (c : Char) : Nat := c.toNat - 48

/-- Value of a list of decimal digit characters (most significant first). -/
def parseDigits (s : Str) : Nat := s.foldl (fun a c => a * 10 + digitVal c) 0

/-- Decimal rendering of an integer, as Python's `str` produces it. -/
def intRepr (k : Int) : Str :=
  if k < 0 then '-' :: natToChars (k.natAbs) else natToChars k.natAbs

/-- ASCII decimal digit test (what both `\d` in the allocator's regex and
the digit check of `int()` accept on ASCII input). -/
def isDigitC (c : Char) : Bool := 48 ≤ c.toNat && c.toNat ≤ 57

/-- Tail validator for the digit-and-underscore body accepted by Python's
`int()`: after an initial digit, underscores may appear only singly and
only between digits. -/
def digitsTail : Str → Bool
  | [] => true
  | c :: rest =>
    if c = '_' then
      match rest with
      | [] => false
      | d :: r => isDigitC d && digitsTail r
    else isDigitC c && digitsTail rest

/-- Validator for the whole digit body accepted by Python's `int()`
(nonempty, starts with a digit, underscores single and between digits). -/
def digitsBody : Str → Bool
  | [] => false
  | c :: rest => isDigitC c && digitsTail rest

/-- ASCII whitespace stripped by Python's `int()` before parsing. -/
def isSpaceC (c : Char) : Bool :=
  c = ' ' || c = '\t' || c = '\n' || c = '\r' || c = '\x0b' || c = '\x0c'

/-- Model of Python's `int(s)` on ASCII input: strip surrounding whitespace,
accept an optional sign, then a digit body with optional single underscores
between digits; `none` models the `ValueError` path. (Non-ASCII digits and
Unicode whitespace, which CPython also accepts, are outside this model.) -/
def pyInt (s : Str) : Option Int :=
  match ((s.dropWhile isSpaceC).reverse.dropWhile isSpaceC).reverse with
  | [] => none
  | c :: body =>
    if c = '+' then
      if digitsBody body then some (parseDigits (body.filter isDigitC)) else none
    else if c = '-' then
      if digitsBody body then some (-(parseDigits (body.filter isDigitC) : Int)) else none
    else
      if digitsBody (c :: body) then some (parseDigits ((c :: body).filter isDigitC)) else none

/-- Split a string at every slash; empty segments are kept here and
filtered by the callers that need pathlib/normpath semantics. -/
def splitSlash : Str → List Str
  | [] => [[]]
  | c :: rest =>
    if c = '/' then [] :: splitSlash rest
    else
      match splitSlash rest with
      | [] => [[c]]
      | g :: gs => (c :: g) :: gs

/-- Components of a path as `pathlib.PurePosixPath` keeps them: empty and
single-dot segments are dropped, `..` segments are kept. -/
def pComps (s : Str) : List Str :=
  (splitSlash s).filter (fun c => c ≠ [] && c ≠ ".".toList)

/-- Join components with slashes (the `as_posix` rendering of a relative
path with at least one component). -/
def joinPath : List Str → Str
  | [] => []
  | [c] => c
  | c :: cs => c ++ '/' :: joinPath cs

/-- Model of `Path(s).parent.as_posix().strip("/")` from the copier:
drop the last component, render, and degenerate to `.` for a bare
relative filename (pathlib's parent of a single-segment relative path). -/
def folderOf (s : Str) : Str :=
  let ds := (pComps s).dropLast
  if ds = [] then (if s.head? = some '/' then [] else ".".toList)
  else joinPath ds

/-- Model of `Path(s).name`. -/
def nameOf (s : Str) : Str := ((pComps s).getLast?).getD []

/-- Case analysis of `os.path.splitext` once the reversed name is split
at its last dot: `e` is the reversed extension body, the third argument
the rest of the reversed name. -/
def splitextCore (f e : Str) : Str → Str × Str
  | [] => (f, [])
  | _ :: before =>
    if before.all (fun c => c = '.') then (f, [])
    else (before.reverse, '.' :: e.reverse)

/-- Model of `os.path.splitext` on a bare filename: split at the last dot
provided some earlier character of the name is not a dot. -/
def splitextFname (f : Str) : Str × Str :=
  splitextCore f (f.reverse.takeWhile (fun c => c ≠ '.'))
    (f.reverse.dropWhile (fun c => c ≠ '.'))

/-- The three characters of a parent-directory marker. -/
def ddSlash : Str := "../".toList

/-- Fuel-driven core of the leading `../` stripper; each strip removes
three characters, so the string's length is enough fuel. -/
def spdGo : Nat → Str → Str
  | 0, s => s
  | f + 1, s => if ddSlash.isPrefixOf s then spdGo f (s.drop 3) else s

/-- Model of the copier's `while targ_rel.startswith("../"): targ_rel = targ_rel[3:]`. -/
def stripParentDots (s : Str) : Str := spdGo s.length s

/-- Model of `.replace("\\", "/")`. -/
def replBS (s : Str) : Str := s.map (fun c => if c = '\\' then '/' else c)

/-- Model of `(Path(part_rel).parent / target).as_posix()` for a relative
`target`: concatenate the parent's components with the target's. -/
def joinUnder (parentComps : List Str) (target : Str) : Str :=
  joinPath (parentComps ++ pComps target)

/-- Normalized-path components in the style of `os.path.normpath` applied
to a relative path: `.` dropped, `..` cancels a preceding real component
and is retained at the front otherwise. -/
def npStep (st : List Str) (c : Str) : List Str :=
  if c = "..".toList then
    match st.getLast? with
    | some l => if l = "..".toList then st ++ [c] else st.dropLast
    | none => [c]
  else st ++ [c]

/-- Components after `normpath` normalization (leading `..` retained). -/
def npComps (s : Str) : List Str := (pComps s).foldl npStep []

/-- Filesystem-level resolution of a relative path against a tree root:
`..` always cancels, and escaping above the root yields `none` (such a
path never names a file inside the modelled tree). -/
def osStep (acc : Option (List Str)) (c : Str) : Option (List Str) :=
  match acc with
  | none => none
  | some st =>
    if c = "..".toList then
      match st with
      | [] => none
      | _ => some st.dropLast
    else some (st ++ [c])

/-- Resolved key of a path inside a tree, `none` when the path escapes. -/
def osNormComps (cs : List Str) : Option (List Str) := cs.foldl osStep (some [])

/-- Resolved key of a path string. -/
def osNorm (s : Str) : Option (List Str) := osNormComps (pComps s)

/-- Length of the longest common prefix of two component lists. -/
def commonPfxLen : List Str → List Str → Nat
  | a :: as, b :: bs => if a = b then commonPfxLen as bs + 1 else 0
  | _, _ => 0

/-- Components of `os.path.relpath(p, start)`: climb with `..` for each
component of `start` past the common prefix, then descend into `p`. -/
def relpathComps (p start : Str) : List Str :=
  List.replicate ((npComps start).length - commonPfxLen (npComps start) (npComps p))
      ("..".toList)
    ++ (npComps p).drop (commonPfxLen (npComps start) (npComps p))

/-- Model of `os.path.relpath(p, start)` for relative POSIX paths that do
not escape the working directory: normalize both, strip the common prefix,
and climb with `..` for each remaining component of `start`. -/
def relpathStr (p start : Str) : Str :=
  if relpathComps p start = [] then ".".toList else joinPath (relpathComps p start)

/-- Resolution of a relative relationship target from a folder, as the
filesystem would perform it when the merged package is consumed. -/
def resolveFrom (folder target : Str) : Option (List Str) :=
  osNormComps (pComps folder ++ pComps target)

/-- One relationship of a `.rels` part: `Id`, `Type` and `Target`
attributes. -/
structure Rel where
  id : Str
  typ : Str
  target : Str
deriving DecidableEq

/-- A file in a package tree: opaque binary content, or a relationships
part already in parsed form. (A non-XML file sitting at a `.rels` path
would make the original raise a parse error; such trees are outside the
model.) -/
inductive Entry where
  | bin : Nat → Entry
  | rels : List Rel → Entry
deriving DecidableEq

/-- Keys of the tree map: filesystem-resolved path components. -/
abbrev Key := List Str

/-- A package content tree (the extracted `ppt/` directory): an
association list from resolved path components to file contents. -/
abbrev Tree := List (Key × Entry)

/-- First entry of the tree at a key. -/
def findTree : Tree → Key → Option Entry
  | [], _ => none
  | (k, e) :: rest, q => if k = q then some e else findTree rest q

/-- Write a file, replacing an existing entry at the same resolved key
(`shutil.copyfile` / `tree.write` overwrite). -/
def setTree : Tree → Key → Entry → Tree
  | [], k, e => [(k, e)]
  | (k0, e0) :: rest, k, e => if k0 = k then (k, e) :: rest else (k0, e0) :: setTree rest k e

/-- Look a path string up in a tree, resolving `..` as the filesystem
does; a path escaping the tree root names nothing inside it. -/
def lookupFile (t : Tree) (s : Str) : Option Entry :=
  match osNorm s with
  | none => none
  | some k => findTree t k

/-- Write through a path string. A path escaping the root would land
outside the package tree; it is unreachable for parts that exist in the
source tree, and modelled as a no-op. -/
def setFile (t : Tree) (s : Str) (e : Entry) : Tree :=
  match osNorm s with
  | none => t
  | some k => setTree t k e

/-- Model of `os.listdir` on a folder of the tree: the names of the files
directly inside it, in tree order. (Subdirectory names, which `listdir`
also reports, never match any naming convention and are omitted.) -/
def listdirAt (t : Tree) (folder : Str) : List Str :=
  match osNorm folder with
  | none => []
  | some fk =>
    t.filterMap (fun e =>
      match e.1.getLast? with
      | some n => if e.1.dropLast = fk then some n else none
      | none => none)

/-- The content-type manifest `[Content_Types].xml`: `Default`
(extension, type) entries and `Override` (part name, type) entries, in
document order. -/
structure CT where
  defaults : List (Str × Str)
  overrides : List (Str × Str)
deriving DecidableEq

/-- Model of `add_content_type_override`: append an override unless one
with the same `PartName` already exists. -/
def add_content_type_override (ct : CT) (part_name content_type : Str) : CT :=
  if ct.overrides.any (fun p => p.1 = part_name) then ct
  else { ct with overrides := ct.overrides ++ [(part_name, content_type)] }

/-- Core of `ensure_default_types_from_source` on the default-entry lists:
the `have` set starts as the destination's (extension, type) pairs and
every source pair not in the set is appended to the destination and added
to the set. -/
def mergeDefaultsList (dst srcDefs : List (Str × Str)) : List (Str × Str) :=
  (srcDefs.foldl
    (fun acc e => if e ∈ acc.2 then acc else (acc.1 ++ [e], acc.2 ++ [e]))
    (dst, dst)).1

/-- Model of `ensure_default_types_from_source`. -/
def ensure_default_types_from_source (dst src : CT) : CT :=
  { dst with defaults := mergeDefaultsList dst.defaults src.defaults }

/-- The `rids` list of `next_rel_id`: the integers Python's `int()`
accepts from the part of each `Id` after a leading `rId`. -/
def ridVals (rels : List Rel) : List Int :=
  rels.filterMap (fun r =>
    if ("rId".toList).isPrefixOf r.id then pyInt (r.id.drop 3) else none)

/-- The `max(rids) if rids else 0` step of `next_rel_id`. -/
def maxRidVal (rids : List Int) : Int :=
  match rids with
  | [] => 0
  | h :: t => t.foldl max h

/-- Model of `next_rel_id`: `rId` followed by the maximum collected
integer plus one. -/
def next_rel_id (rels : List Rel) : Str :=
  "rId".toList ++ intRepr (maxRidVal (ridVals rels) + 1)

/-- Leftmost maximal digit run of a string, as `re.search(r"(\d+)", name)`
captures it. -/
def firstRun : Str → Option Str
  | [] => none
  | c :: rest =>
    if isDigitC c then some (c :: rest.takeWhile isDigitC) else firstRun rest

/-- One step of `max_index`: a name that starts with `pfx`, ends with
`sfx` and contains a digit run contributes the value of its first run. -/
def miStep (pfx sfx : Str) (mx : Nat) (name : Str) : Nat :=
  if pfx.isPrefixOf name && sfx.isSuffixOf name then
    match firstRun name with
    | some run => max mx (parseDigits run)
    | none => mx
  else mx

/-- Model of `max_index`: over the folder's names that start with `pfx`
and end with `sfx`, the maximum value of the first digit run (0 when no
name qualifies). -/
def max_index (names : List Str) (pfx sfx : Str) : Nat :=
  names.foldl (miStep pfx sfx) 0

/-- The `.xml` suffix used by every numbered naming convention. -/
def xmlSfx : Str := ".xml".toList

/-- Fresh name of a numbered part kind: prefix, max existing index plus
one, `.xml`. -/
def numberedName (names : List Str) (pfx : Str) : Str :=
  pfx ++ natToChars (max_index names pfx xmlSfx + 1) ++ xmlSfx

/-- Candidate sequence of the fallback namer: the original filename, then
`base_1.ext`, `base_2.ext`, and so on. -/
def fbCand (fname base ext : Str) : Nat → Str
  | 0 => fname
  | j + 1 => base ++ '_' :: natToChars (j + 1) ++ ext

/-- The fallback `while (dst_folder / candidate).exists()` loop, run with
explicit fuel; fuel `names.length + 1` always suffices (pigeonhole over
the distinct candidates). -/
def fbGo (names : List Str) (fname base ext : Str) : Nat → Nat → Str
  | 0, j => fbCand fname base ext j
  | f + 1, j =>
    if fbCand fname base ext j ∈ names then fbGo names fname base ext f (j + 1)
    else fbCand fname base ext j

/-- Model of the copier's `pick_new_filename` closure: numbered
conventions for the six known folder kinds, uniqueness-preserving
fallback otherwise. -/
def pick_new_filename (folder : Str) (names : List Str) (fname : Str) : Str :=
  if folder = "slides".toList then numberedName names ("slide".toList)
  else if folder = "slideLayouts".toList then numberedName names ("slideLayout".toList)
  else if folder = "slideMasters".toList then numberedName names ("slideMaster".toList)
  else if folder = "charts".toList then numberedName names ("chart".toList)
  else if folder = "theme".toList then numberedName names ("theme".toList)
  else if folder = "notesSlides".toList then numberedName names ("notesSlide".toList)
  else
    let pr := splitextFname fname
    fbGo names fname pr.1 pr.2 (names.length + 1) 0

/-- The `CT_OVERRIDES` table: folder kind to content type. -/
def ctOverrideFor (folder : Str) : Option Str :=
  if folder = "slides".toList then
    some "application/vnd.openxmlformats-officedocument.presentationml.slide+xml".toList
  else if folder = "slideLayouts".toList then
    some "application/vnd.openxmlformats-officedocument.presentationml.slideLayout+xml".toList
  else if folder = "slideMasters".toList then
    some "application/vnd.openxmlformats-officedocument.presentationml.slideMaster+xml".toList
  else if folder = "charts".toList then
    some "application/vnd.openxmlformats-officedocument.drawingml.chart+xml".toList
  else if folder = "theme".toList then
    some "application/vnd.openxmlformats-officedocument.theme+xml".toList
  else if folder = "notesSlides".toList then
    some "application/vnd.openxmlformats-officedocument.presentationml.notesSlide+xml".toList
  else if folder = "handoutMasters".toList then
    some "application/vnd.openxmlformats-officedocument.presentationml.handoutMaster+xml".toList
  else if folder = "notesMasters".toList then
    some "application/vnd.openxmlformats-officedocument.presentationml.notesMaster+xml".toList
  else none

/-- Absolute manifest part name of a path under the `ppt/` root. -/
def pptAbs (s : Str) : Str := "/ppt/".toList ++ s

/-- Mutable context of one dependency-copy pass: the memo `name_map`, the
destination tree, the destination content-type manifest, and an
instrumentation log recording each `shutil.copyfile` of a part as the
pair (requested source path, destination path). -/
structure PState where
  nameMap : List (Str × Str)
  dst : Tree
  ctDst : CT
  copyLog : List (Str × Str)
deriving DecidableEq

/-- First binding of a key in the `name_map`. -/
def lookupNm : List (Str × Str) → Str → Option Str
  | [], _ => none
  | (k, v) :: rest, q => if k = q then some v else lookupNm rest q

/-- Normalization the copier applies to one relationship target before
recursing: join under the owning part's parent, strip leading `../`,
replace backslashes. -/
def targOf (part_rel target : Str) : Str :=
  replBS (stripParentDots (joinUnder ((pComps part_rel).dropLast) target))

/-- The copier's rewrite of a processed relationship target: the relative
path from the new owner's folder to the new dependency, forced to start
with `../`. -/
def rewriteTarget (folder dep_rel : Str) : Str :=
  if ddSlash.isPrefixOf (replBS (relpathStr dep_rel folder)) then
    replBS (relpathStr dep_rel folder)
  else ddSlash ++ replBS (relpathStr dep_rel folder)

/-- Relationship-processing loop of the copier (lines 191-214): walk the
parsed relationships in order; internal `../` targets are recursively
copied through `copyF` and rewritten, everything else is kept unchanged.
Returns the updated state, the processed relationship list and the
`changed` flag; `none` propagates fuel exhaustion of a recursive copy. -/
def processRels (copyF : PState → Str → Option (Str × PState)) (part_rel folder : Str) :
    PState → List Rel → List Rel → Bool → Option (PState × List Rel × Bool)
  | st, [], out, changed => some (st, out, changed)
  | st, rel :: rest, out, changed =>
    if ddSlash.isPrefixOf rel.target then
      match copyF st (targOf part_rel rel.target) with
      | none => none
      | some (dep, st') =>
        processRels copyF part_rel folder st' rest
          (out ++ [{ rel with target := rewriteTarget folder dep }]) true
    else processRels copyF part_rel folder st rest (out ++ [rel]) changed

/-- The destination-relative path assembled from the folder and the new
filename (`f"{folder}/{new_fname}" if folder else new_fname`). -/
def dstRelOf (folder new_fname : Str) : Str :=
  if folder ≠ [] then folder ++ '/' :: new_fname else new_fname

/-- The fresh destination path the copier chooses for a part, from the
part's folder, the current destination listing of that folder, and the
part's filename. -/
def newDstRel (st : PState) (part_rel : Str) : Str :=
  dstRelOf (folderOf part_rel)
    (pick_new_filename (folderOf part_rel)
      (listdirAt st.dst (folderOf part_rel)) (nameOf part_rel))

/-- The relationships-sibling path `folder/_rels/(base + ext).rels`. -/
def relsRelOf (folder fname : Str) : Str :=
  folder ++ '/' :: "_rels".toList ++ '/'
    :: ((splitextFname fname).1 ++ (splitextFname fname).2 ++ ".rels".toList)

/-- State after `shutil.copyfile(src_part, dst_part)` and the immediate
`name_map[part_rel] = dst_part_rel` record (plus one log event). -/
def afterCopy (st : PState) (part_rel dst_part_rel : Str) (entry : Entry) : PState :=
  { st with
    dst := setFile st.dst dst_part_rel entry,
    copyLog := st.copyLog ++ [(part_rel, dst_part_rel)],
    nameMap := st.nameMap ++ [(part_rel, dst_part_rel)] }

/-- State after the copier's content-type registration: an override for a
known folder kind, a defaults merge from the source manifest otherwise. -/
def afterCT (ct_src : CT) (st : PState) (folder dst_part_rel : Str) : PState :=
  match ctOverrideFor folder with
  | some ty => { st with ctDst := add_content_type_override st.ctDst (pptAbs dst_part_rel) ty }
  | none => { st with ctDst := ensure_default_types_from_source st.ctDst ct_src }

/-- State right after the part itself is copied, its name memoized, its
content type registered, and its raw `.rels` sibling copied across. -/
def withRels (ct_src : CT) (st : PState) (part_rel : Str) (entry : Entry) (rl : List Rel) : PState :=
  let base := afterCT ct_src (afterCopy st part_rel (newDstRel st part_rel) entry)
    (folderOf part_rel) (newDstRel st part_rel)
  { base with
    dst := setFile base.dst (relsRelOf (folderOf part_rel) (nameOf part_rel)) (Entry.rels rl) }

/-- One unfolding of `copy_part_with_dependencies`, with `prev` standing
for the recursion at the next lower fuel: memo lookup, missing-source
early return, fresh-name allocation, byte copy, memo record,
content-type registration, then recursive processing of the part's
`.rels` sibling. -/
def copyStep (src : Tree) (ct_src : CT)
    (prev : PState → Str → Option (Str × PState))
    (st : PState) (part_rel : Str) : Option (Str × PState) :=
  match lookupNm st.nameMap part_rel with
    | some v => some (v, st)
    | none =>
      match lookupFile src part_rel with
      | none => some (part_rel, st)
      | some entry =>
        match lookupFile src (relsRelOf (folderOf part_rel) (nameOf part_rel)) with
        | some (Entry.rels rl) =>
          match processRels prev part_rel (folderOf part_rel)
              (withRels ct_src st part_rel entry rl) rl [] false with
          | none => none
          | some (st4, outRels, changed) =>
            some (newDstRel st part_rel,
              if changed then
                { st4 with
                  dst := setFile st4.dst
                    (relsRelOf (folderOf part_rel) (nameOf part_rel)) (Entry.rels outRels) }
              else st4)
        | _ =>
          some (newDstRel st part_rel,
            afterCT ct_src (afterCopy st part_rel (newDstRel st part_rel) entry)
              (folderOf part_rel) (newDstRel st part_rel))

/-- Model of `copy_part_with_dependencies`, with explicit fuel bounding
the recursion depth; `none` models a Python `RecursionError`. Defined
through `Nat.rec` so that the kernel can evaluate it on concrete
packages. -/
def copy_part_with_dependencies (src : Tree) (ct_src : CT) (fuel : Nat) :
    PState → Str → Option (Str × PState) :=
  Nat.rec (motive := fun _ => PState → Str → Option (Str × PState))
    (fun _ _ => none)
    (fun _ prev => copyStep src ct_src prev)
    fuel

/-- One `p:sldId` element of the presentation's slide list: its `id`
attribute and its `r:id` attribute (either may be absent in a hand-edited
package). -/
structure SldEntry where
  idAttr : Option Str
  rid : Option Str
deriving DecidableEq

/-- An extracted presentation package, as the merge reads it: the
`p:sldIdLst` of `presentation.xml` (`none` when the element is absent),
the presentation-level relationships, the `ppt/` content tree and the
content-type manifest. -/
structure Pkg where
  slides : Option (List SldEntry)
  rels : List Rel
  tree : Tree
  ct : CT
deriving DecidableEq

/-- The relationship type marking slide relationships. -/
def slideRelType : Str :=
  "http://schemas.openxmlformats.org/officeDocument/2006/relationships/slide".toList

/-- The slide content type (`CT_OVERRIDES["slides"]`). -/
def slidesCT : Str :=
  "application/vnd.openxmlformats-officedocument.presentationml.slide+xml".toList

/-- The `id_to_target` dict of the merge loop: relationship id to target,
restricted to slide-typed relationships; a later duplicate id overwrites
an earlier one, as in a Python dict comprehension. -/
def idToTarget (rels : List Rel) (rid : Str) : Option Str :=
  (((rels.filter (fun r => r.typ = slideRelType)).reverse.find?
      (fun r => r.id = rid)).map (fun r => r.target))

/-- Model of `current_max_sld_id`: floor 256, maximum over the entries
whose `id` attribute (default string `"256"` when absent) parses as an
integer. -/
def current_max_sld_id (entries : List SldEntry) : Int :=
  entries.foldl
    (fun mx e =>
      match pyInt (e.idAttr.getD ("256".toList)) with
      | some v => max mx v
      | none => mx)
    256

/-- Normalization of a slide target to a `ppt/`-relative path. -/
def stripPpt (target : Str) : Str :=
  if ("/ppt/".toList).isPrefixOf target then target.drop 5 else target

/-- Mutable state of the merge orchestrator: the base package's slide
list, presentation relationships, content tree, manifest and running
maximum slide id, plus two instrumentation logs (part copies, and one
record per appended slide: extra-input index, source entry, created
entry). -/
structure MState where
  slides : List SldEntry
  rels : List Rel
  tree : Tree
  ct : CT
  maxId : Int
  copyLog : List (Str × Str)
  slideLog : List (Nat × SldEntry × SldEntry)
deriving DecidableEq

/-- Body of the inner merge loop for one `p:sldId` entry of one extra
input (lines 305-343): resolve the entry's relationship id; on failure
`continue`; otherwise copy the slide with its dependencies, allocate a
fresh presentation relationship id, append the relationship, append a new
slide entry with the incremented id, and update the manifest. The second
accumulator component is the per-input `name_map`. -/
def mergeSlide (fuel : Nat) (idx : Nat) (src : Pkg)
    (acc : MState × List (Str × Str)) (e : SldEntry) :
    Option (MState × List (Str × Str)) :=
  let st := acc.1
  match e.rid.bind (idToTarget src.rels) with
  | none => some acc
  | some target =>
    if target = [] then some acc
    else
      let part_rel := stripPpt target
      match copy_part_with_dependencies src.tree src.ct fuel
          ⟨acc.2, st.tree, st.ct, st.copyLog⟩ part_rel with
      | none => none
      | some (dst_part_rel, ps) =>
        let new_rid := next_rel_id st.rels
        let newId := st.maxId + 1
        let newEntry : SldEntry := ⟨some (intRepr newId), some new_rid⟩
        let ct2 := add_content_type_override ps.ctDst (pptAbs dst_part_rel) slidesCT
        let ct3 := ensure_default_types_from_source ct2 src.ct
        some
          ({ slides := st.slides ++ [newEntry],
             rels := st.rels ++ [⟨new_rid, slideRelType, dst_part_rel⟩],
             tree := ps.dst, ct := ct3, maxId := newId,
             copyLog := ps.copyLog,
             slideLog := st.slideLog ++ [(idx, e, newEntry)] }, ps.nameMap)

/-- Merge of one extra input (lines 283-343): an input with no slide list
is skipped entirely; otherwise its slide entries are processed in list
order with a fresh `name_map`. -/
def mergeOne (fuel : Nat) (st : MState) (idxSrc : Nat × Pkg) : Option MState :=
  match idxSrc.2.slides with
  | none => some st
  | some entries =>
    (entries.foldlM (mergeSlide fuel idxSrc.1 idxSrc.2) (st, [])).map Prod.fst

/-- Model of `merge_presentations` on already-extracted packages: start
from the base package (creating its slide list when absent, and taking
the running maximum slide id with floor 256), then fold the extra inputs
in order. `none` models a crash of a recursive dependency copy. -/
def merge_presentations (fuel : Nat) (base : Pkg) (extras : List Pkg) : Option MState :=
  let entries0 := base.slides.getD []
  let st0 : MState :=
    { slides := entries0, rels := base.rels, tree := base.tree, ct := base.ct,
      maxId := current_max_sld_id entries0, copyLog := [], slideLog := [] }
  extras.enum.foldlM (mergeOne fuel) st0

/-- Whether one slide entry of a package resolves: its `r:id` attribute
reaches a slide-typed relationship with a nonempty target. -/
def resolvableB (src : Pkg) (e : SldEntry) : Bool :=
  match e.rid.bind (idToTarget src.rels) with
  | none => false
  | some t => t ≠ []

/-- The slide entries of one package that the merge actually processes:
those whose `r:id` attribute resolves through a slide-typed relationship
to a nonempty target. -/
def resolvables (src : Pkg) : List SldEntry :=
  (src.slides.getD []).filter (resolvableB src)

/-- The parsed numeric slide id of an entry, as `current_max_sld_id`
reads it (`int(el.get("id", "256"))`). -/
def sldIdVal (e : SldEntry) : Option Int :=
  pyInt (e.idAttr.getD ("256".toList))

/-- Strict ordering of two slide entries by parsed numeric id. -/
def idLt (a b : SldEntry) : Prop :=
  ∀ va vb, sldIdVal a = some va → sldIdVal b = some vb → va < vb

/-- Invariant threaded through the merge: every slide entry's id parses
and is bounded by the running maximum, and ids strictly increase along
the list. -/
def IdInv (st : MState) : Prop :=
  (∀ e ∈ st.slides, ∃ v, sldIdVal e = some v ∧ v ≤ st.maxId)
  ∧ st.slides.Pairwise idLt

/-- Characterization of the entries `mergeDefaultsList` appends: source
pairs whose exact (extension, type) pair is not already known, first
occurrence only. -/
def addedDefaults (known : List (Str × Str)) : List (Str × Str) → List (Str × Str)
  | [] => []
  | e :: rest =>
    if e ∈ known then addedDefaults known rest
    else e :: addedDefaults (known ++ [e]) rest

/-- The spec's reading of a numbered naming convention (e.g.
`slide\d+\.xml`): the name is exactly the kind prefix, a nonempty digit
run, then `.xml`, and its index is the value of that run. -/
def specConvIndex (pfx name : Str) : Option Nat :=
  if pfx.isPrefixOf name then
    let rest := name.drop pfx.length
    let digits := rest.takeWhile isDigitC
    if digits ≠ [] ∧ rest.drop digits.length = ".xml".toList then
      some (parseDigits digits)
    else none
  else none

/-- Maximum convention index over a folder listing under the spec's
reading of the convention. -/
def specConvMax (names : List Str) (pfx : Str) : Nat :=
  names.foldl
    (fun mx name =>
      match specConvIndex pfx name with
      | some v => max mx v
      | none => mx)
    0

/-- The table sending each numbered folder kind to its filename prefix. -/
def kindPfx (folder : Str) : Option Str :=
  if folder = "slides".toList then some ("slide".toList)
  else if folder = "slideLayouts".toList then some ("slideLayout".toList)
  else if folder = "slideMasters".toList then some ("slideMaster".toList)
  else if folder = "charts".toList then some ("chart".toList)
  else if folder = "theme".toList then some ("theme".toList)
  else if folder = "notesSlides".toList then some ("notesSlide".toList)
  else none

/-- Number of copy events the instrumentation log records for a given
requested source path. -/
def countCopies (log : List (Str × Str)) (p : Str) : Nat :=
  (log.filter (fun e => e.1 = p)).length

/-- The empty copy-pass state: no memo entries, empty destination tree,
empty manifest, empty log. -/
def emptyPState : PState := ⟨[], [], ⟨[], []⟩, []⟩

/-- Concrete one-file source tree for the C1 witness. -/
def c1src : Tree := [(["media".toList, "img.png".toList], Entry.bin 7)]

/-- Result state of the first C1 witness copy call. -/
def c1res : Str × PState :=
  (copy_part_with_dependencies c1src ⟨[], []⟩ 2 emptyPState ("media/img.png".toList)).getD
    ([], emptyPState)

/-- Concrete source tree for the C5 counterexample: a slide whose
relationships part targets a sibling slide through `../slides/`. -/
def c5src : Tree := [
  (["slides".toList, "slideA.xml".toList], Entry.bin 0),
  (["slides".toList, "_rels".toList, "slideA.xml.rels".toList],
    Entry.rels [⟨"rId1".toList, "dep".toList, "../slides/dep.xml".toList⟩]),
  (["slides".toList, "dep.xml".toList], Entry.bin 1)]

/-- Result of the C5 counterexample copy run. -/
def c5res : Str × PState :=
  (copy_part_with_dependencies c5src ⟨[], []⟩ 4 emptyPState
    ("slides/slideA.xml".toList)).getD ([], emptyPState)

/-- The self-referential relationship of the C8 failing input: a slide
whose `.rels` sibling targets the slide itself through `../slides/`. -/
def c8rel : Rel := ⟨"rId1".toList, "loop".toList, "../slides/slide1.xml".toList⟩

/-- The C8 failing input tree: one slide and its self-referential
relationships part. -/
def c8src : Tree := [
  (["slides".toList, "slide1.xml".toList], Entry.bin 0),
  (["slides".toList, "_rels".toList, "slide1.xml.rels".toList], Entry.rels [c8rel])]

/-- Tails of the ever-growing unnormalized paths the copier builds on the
C8 input: `slide1.xml`, then `../slides/` prepended per recursion step. -/
def cycTail : Nat → List Str
  | 0 => ["slide1.xml".toList]
  | k + 1 => "..".toList :: "slides".toList :: cycTail k

/-- Components of the k-th requested source path on the C8 input. -/
def cycComps (k : Nat) : List Str := "slides".toList :: cycTail k

/-- The k-th requested source path on the C8 input
(`slides/../slides/.../slide1.xml`). -/
def cycPath (k : Nat) : Str := joinPath (cycComps k)

/-- A default merge state, for extracting concrete merge results. -/
def mdflt : MState := ⟨[], [], [], ⟨[], []⟩, 0, [], []⟩

/-- Base package of the C2 counterexample: one slide with id 256. -/
def c2base : Pkg :=
  { slides := some [⟨some ("256".toList), some ("rId1".toList)⟩],
    rels := [⟨"rId1".toList, slideRelType, "slides/slide1.xml".toList⟩],
    tree := [(["slides".toList, "slide1.xml".toList], Entry.bin 1)],
    ct := ⟨[], []⟩ }

/-- Extra package of the C2 counterexample: its first slide entry names a
relationship id (`rId9`) that its relationships do not define, so the
merge drops that slide instead of appending it. -/
def c2extra : Pkg :=
  { slides := some [⟨some ("100".toList), some ("rId9".toList)⟩,
    ⟨some ("5".toList), some ("rId2".toList)⟩],
    rels := [⟨"rId2".toList, slideRelType, "slides/slide1.xml".toList⟩],
    tree := [(["slides".toList, "slide1.xml".toList], Entry.bin 3)],
    ct := ⟨[], []⟩ }

/-- Concrete merged state of the C2 demo run. -/
def c2out : MState := (merge_presentations 8 c2base [c2extra]).getD mdflt

/-- Base package of the C3 counterexample. -/
def c3base : Pkg :=
  { slides := some [⟨some ("256".toList), some ("rId1".toList)⟩],
    rels := [], tree := [], ct := ⟨[], []⟩ }

/-- Extra package of the C3 counterexample: its only slide entry has a
dangling relationship id, so it contributes nothing to the output. -/
def c3extra : Pkg :=
  { slides := some [⟨some ("300".toList), some ("rId7".toList)⟩],
    rels := [], tree := [], ct := ⟨[], []⟩ }

/-- Concrete merged state of the C3 demo run. -/
def c3out : MState := (merge_presentations 4 c3base [c3extra]).getD mdflt

/-- Base package of the C7 counterexample: hand-edited slide ids 400 then
300, already out of order. -/
def c7base : Pkg :=
  { slides := some [⟨some ("400".toList), some ("rId1".toList)⟩,
    ⟨some ("300".toList), some ("rId2".toList)⟩],
    rels := [], tree := [], ct := ⟨[], []⟩ }

/-- Extra package of the C7 demo runs: one resolvable slide. -/
def c7extra : Pkg :=
  { slides := some [⟨some ("5".toList), some ("rId2".toList)⟩],
    rels := [⟨"rId2".toList, slideRelType, "slides/slide1.xml".toList⟩],
    tree := [(["slides".toList, "slide1.xml".toList], Entry.bin 3)],
    ct := ⟨[], []⟩ }

/-- Concrete merged state of the C7 counterexample run. -/
def c7out : MState := (merge_presentations 8 c7base [c7extra]).getD mdflt

/-- Base package of the C7 witness: slide ids 256 then 300, strictly
increasing. -/
def c7wbase : Pkg :=
  { slides := some [⟨some ("256".toList), some ("rId1".toList)⟩,
    ⟨some ("300".toList), some ("rId3".toList)⟩],
    rels := [], tree := [], ct := ⟨[], []⟩ }

/-- Concrete merged state of the C7 witness run. -/
def c7wout : MState := (merge_presentations 8 c7wbase [c7extra]).getD mdflt

/-! ## Arithmetic of decimal renderings -/

theorem isDigitC_ofNat (d : Nat) (h : d < 10) : isDigitC (Char.ofNat (48 + d)) = true := by
  interval_cases d <;> decide

theorem digitVal_ofNat (d : Nat) (h : d < 10) : digitVal (Char.ofNat (48 + d)) = d := by
  interval_cases d <;> decide

theorem parseDigits_append_one (s : Str) (c : Char) :
    parseDigits (s ++ [c]) = parseDigits s * 10 + digitVal c := by
  simp [parseDigits, List.foldl_append]

theorem ntcGo_digits : ∀ f n, n ≤ f → ∀ c ∈ ntcGo f n, isDigitC c = true := by
  intro f
  induction f with
  | zero =>
    intro n hn c hc
    interval_cases n
    simp only [ntcGo, List.mem_singleton] at hc
    subst hc; decide
  | succ f ih =>
    intro n hn c hc
    by_cases h10 : n < 10
    · simp only [ntcGo, if_pos h10, List.mem_singleton] at hc
      subst hc; exact isDigitC_ofNat n h10
    · simp only [ntcGo, if_neg h10, List.mem_append, List.mem_singleton] at hc
      rcases hc with hc | hc
      · exact ih (n / 10) (by omega) c hc
      · subst hc; exact isDigitC_ofNat (n % 10) (by omega)

theorem ntcGo_ne_nil (f n : Nat) : ntcGo f n ≠ [] := by
  cases f with
  | zero => simp [ntcGo]
  | succ f =>
    by_cases h10 : n < 10 <;> simp [ntcGo, h10]

theorem parse_ntcGo : ∀ f n, n ≤ f → parseDigits (ntcGo f n) = n := by
  intro f
  induction f with
  | zero =>
    intro n hn
    interval_cases n
    decide
  | succ f ih =>
    intro n hn
    by_cases h10 : n < 10
    · simp only [ntcGo, if_pos h10]
      show parseDigits ([] ++ [Char.ofNat (48 + n)]) = n
      rw [parseDigits_append_one, digitVal_ofNat n h10]
      simp [parseDigits]
    · simp only [ntcGo, if_neg h10]
      rw [parseDigits_append_one, ih (n / 10) (by omega), digitVal_ofNat (n % 10) (by omega)]
      omega

theorem natToChars_digits (n : Nat) : ∀ c ∈ natToChars n, isDigitC c = true :=
  ntcGo_digits n n le_rfl

theorem natToChars_ne_nil (n : Nat) : natToChars n ≠ [] := ntcGo_ne_nil n n

theorem parse_natToChars (n : Nat) : parseDigits (natToChars n) = n :=
  parse_ntcGo n n le_rfl

theorem natToChars_inj {m n : Nat} (h : natToChars m = natToChars n) : m = n := by
  have := parse_natToChars m
  rw [h, parse_natToChars] at this
  omega

/-! ## Round trip of Python int parsing on canonical decimals -/

theorem digit_ne_plus {c : Char} (h : isDigitC c = true) : c ≠ '+' := by
  rintro rfl; exact absurd h (by decide)

theorem digit_ne_minus {c : Char} (h : isDigitC c = true) : c ≠ '-' := by
  rintro rfl; exact absurd h (by decide)

theorem digit_ne_und {c : Char} (h : isDigitC c = true) : c ≠ '_' := by
  rintro rfl; exact absurd h (by decide)

theorem digit_not_space {c : Char} (h : isDigitC c = true) : isSpaceC c = false := by
  cases hsp : isSpaceC c
  · rfl
  · exfalso
    simp only [isSpaceC, Bool.or_eq_true, decide_eq_true_eq] at hsp
    rcases hsp with ((((h1 | h1) | h1) | h1) | h1) | h1 <;> (subst h1; exact absurd h (by decide))

theorem digitsTail_of_all (s : Str) (h : ∀ c ∈ s, isDigitC c = true) :
    digitsTail s = true := by
  induction s with
  | nil => rfl
  | cons c rest ih =>
    have hc := h c (by simp)
    unfold digitsTail
    rw [if_neg (digit_ne_und hc), hc]
    simp [ih (fun d hd => h d (by simp [hd]))]

theorem digitsBody_of_all (s : Str) (hne : s ≠ []) (h : ∀ c ∈ s, isDigitC c = true) :
    digitsBody s = true := by
  cases s with
  | nil => exact absurd rfl hne
  | cons c rest =>
    simp only [digitsBody, h c (by simp), Bool.true_and]
    exact digitsTail_of_all rest (fun d hd => h d (by simp [hd]))

theorem dropWhile_of_head_not (p : Char → Bool) (s : Str) (h : ∀ c ∈ s, p c = false) :
    s.dropWhile p = s := by
  cases s with
  | nil => rfl
  | cons c rest => simp [List.dropWhile_cons, h c (by simp)]

theorem strip_of_no_space (s : Str) (h : ∀ c ∈ s, isSpaceC c = false) :
    ((s.dropWhile isSpaceC).reverse.dropWhile isSpaceC).reverse = s := by
  rw [dropWhile_of_head_not _ s h,
    dropWhile_of_head_not _ s.reverse (fun c hc => h c (List.mem_reverse.mp hc)),
    List.reverse_reverse]

theorem pyInt_of_all_digits (s : Str) (hne : s ≠ []) (hall : ∀ c ∈ s, isDigitC c = true) :
    pyInt s = some (parseDigits s : Int) := by
  have hnosp : ∀ c ∈ s, isSpaceC c = false := fun c hc => digit_not_space (hall c hc)
  cases s with
  | nil => exact absurd rfl hne
  | cons c rest =>
    have hc := hall c (by simp)
    simp only [pyInt, strip_of_no_space _ hnosp]
    rw [if_neg (digit_ne_plus hc), if_neg (digit_ne_minus hc),
      if_pos (digitsBody_of_all _ (by simp) hall),
      List.filter_eq_self.mpr hall]

theorem pyInt_natToChars (n : Nat) : pyInt (natToChars n) = some (n : Int) := by
  rw [pyInt_of_all_digits _ (natToChars_ne_nil n) (natToChars_digits n), parse_natToChars]

theorem pyInt_intRepr (k : Int) : pyInt (intRepr k) = some k := by
  by_cases hk : k < 0
  · have hall := natToChars_digits k.natAbs
    have hnosp : ∀ c ∈ ('-' :: natToChars k.natAbs), isSpaceC c = false := by
      intro c hc
      rcases List.mem_cons.mp hc with rfl | hc
      · decide
      · exact digit_not_space (hall c hc)
    simp only [intRepr, if_pos hk, pyInt, strip_of_no_space _ hnosp]
    rw [if_neg (by decide : ¬('-' = '+')), if_pos trivial,
      if_pos (digitsBody_of_all _ (natToChars_ne_nil k.natAbs) hall),
      List.filter_eq_self.mpr hall, parse_natToChars]
    congr 1
    omega
  · simp only [intRepr, if_neg hk]
    rw [pyInt_natToChars]
    congr 1
    omega

/-! ## Freshness of allocated relationship identifiers (claim C10) -/

theorem le_foldl_max (t : List Int) : ∀ i : Int, i ≤ t.foldl max i := by
  induction t with
  | nil => intro i; simp
  | cons a t ih => intro i; exact le_trans (le_max_left i a) (ih (max i a))

theorem mem_le_foldl_max (t : List Int) : ∀ (i v : Int), v ∈ t → v ≤ t.foldl max i := by
  induction t with
  | nil => intro i v hv; simp at hv
  | cons a t ih =>
    intro i v hv
    rcases List.mem_cons.mp hv with rfl | hv2
    · exact le_trans (le_max_right i v) (le_foldl_max t (max i v))
    · exact ih (max i a) v hv2

theorem mem_le_maxRidVal (rids : List Int) (v : Int) (hv : v ∈ rids) : v ≤ maxRidVal rids := by
  cases rids with
  | nil => simp at hv
  | cons h t =>
    show v ≤ t.foldl max h
    rcases List.mem_cons.mp hv with rfl | hv2
    · exact le_foldl_max t v
    · exact mem_le_foldl_max t h v hv2

/-- C10: the identifier returned by `next_rel_id` differs from the `Id`
attribute of every relationship already present in the set: an existing
id equal to the returned `rId<n+1>` string would itself have contributed
`n+1` to the maximum `n`. -/
theorem c10_next_rel_id_fresh (rels : List Rel) (r : Rel) (hr : r ∈ rels) :
    next_rel_id rels ≠ r.id := by
  intro heq
  unfold next_rel_id at heq
  have hpfx : ("rId".toList).isPrefixOf r.id = true := by
    rw [← heq]; exact List.isPrefixOf_iff_prefix.mpr ⟨_, rfl⟩
  have hdrop : r.id.drop 3 = intRepr (maxRidVal (ridVals rels) + 1) := by
    rw [← heq]; rfl
  have hmem : maxRidVal (ridVals rels) + 1 ∈ ridVals rels := by
    refine List.mem_filterMap.mpr ⟨r, hr, ?_⟩
    rw [if_pos hpfx, hdrop, pyInt_intRepr]
  have := mem_le_maxRidVal (ridVals rels) _ hmem
  omega

/-- Witness for C10 at a concrete relationship set. -/
theorem c10_witness :
    next_rel_id [⟨"rId1".toList, "t".toList, "a".toList⟩,
                 ⟨"rId7".toList, "t".toList, "b".toList⟩]
      ≠ ("rId7".toList) :=
  c10_next_rel_id_fresh _ ⟨"rId7".toList, "t".toList, "b".toList⟩ (by simp)

/-! ## Content-type default merging (claim C4) -/

theorem foldl_mergeStep (src : List (Str × Str)) :
    ∀ out known : List (Str × Str),
      (src.foldl (fun acc e => if e ∈ acc.2 then acc else (acc.1 ++ [e], acc.2 ++ [e]))
          (out, known))
        = (out ++ addedDefaults known src, known ++ addedDefaults known src) := by
  induction src with
  | nil => intro out known; simp [addedDefaults]
  | cons a rest ih =>
    intro out known
    simp only [List.foldl_cons]
    by_cases ha : a ∈ known
    · rw [if_pos ha, ih out known]
      simp only [addedDefaults, if_pos ha]
    · rw [if_neg ha, ih (out ++ [a]) (known ++ [a])]
      simp only [addedDefaults, if_neg ha]
      rw [List.append_assoc, List.append_assoc]
      rfl

theorem mem_addedDefaults (src : List (Str × Str)) :
    ∀ (known : List (Str × Str)) (e : Str × Str),
      e ∈ addedDefaults known src ↔ (e ∈ src ∧ e ∉ known) := by
  induction src with
  | nil => intro known e; simp [addedDefaults]
  | cons a rest ih =>
    intro known e
    by_cases ha : a ∈ known
    · rw [show addedDefaults known (a :: rest) = addedDefaults known rest from by
        simp only [addedDefaults, if_pos ha], ih known e]
      simp only [List.mem_cons]
      constructor
      · rintro ⟨he, hne⟩; exact ⟨Or.inr he, hne⟩
      · rintro ⟨rfl | he, hne⟩
        · exact absurd ha hne
        · exact ⟨he, hne⟩
    · rw [show addedDefaults known (a :: rest)
            = a :: addedDefaults (known ++ [a]) rest from by
        simp only [addedDefaults, if_neg ha]]
      simp only [List.mem_cons, ih (known ++ [a]) e, List.mem_append,
        List.mem_singleton]
      constructor
      · rintro (rfl | ⟨he, hne⟩)
        · exact ⟨Or.inl rfl, ha⟩
        · exact ⟨Or.inr he, fun h => hne (Or.inl h)⟩
      · rintro ⟨rfl | he, hne⟩
        · exact Or.inl rfl
        · by_cases hea : e = a
          · exact Or.inl hea
          · refine Or.inr ⟨he, ?_⟩
            simp only [List.mem_append, List.mem_singleton, List.mem_cons,
              List.not_mem_nil]
            tauto

/-- C4 counterexample: with destination default `png -> image/png` and
source default `png -> image/x-png`, the source's differing type for the
existing extension IS appended, so the extension ends up mapped to a
second type as well, contrary to the claim. -/
theorem c4_counterexample :
    (ensure_default_types_from_source
        ⟨[("png".toList, "image/png".toList)], []⟩
        ⟨[("png".toList, "image/x-png".toList)], []⟩).defaults
      = [("png".toList, "image/png".toList), ("png".toList, "image/x-png".toList)]
    ∧ ("image/png".toList ≠ "image/x-png".toList) := by
  constructor
  · rfl
  · decide

/-- C4 amended: `mergeDefaults` keeps every destination default entry
unchanged in place (the original pair for an existing extension is never
removed or overwritten), and appends exactly those source (extension,
type) pairs whose exact pair was not already present — in particular a
source's differing type for an existing extension IS added as an
additional default entry. -/
theorem c4_defaults_merge_amended (dst src : CT) :
    (ensure_default_types_from_source dst src).defaults
        = dst.defaults ++ addedDefaults dst.defaults src.defaults
    ∧ ∀ e, e ∈ addedDefaults dst.defaults src.defaults
        ↔ (e ∈ src.defaults ∧ e ∉ dst.defaults) := by
  constructor
  · show (mergeDefaultsList dst.defaults src.defaults) = _
    unfold mergeDefaultsList
    rw [foldl_mergeStep]
  · intro e; exact mem_addedDefaults _ _ _

/-! ## The name allocator (claim C6) -/

theorem takeWhile_all_append (p : Char → Bool) (l r : Str) (hl : ∀ c ∈ l, p c = true) :
    (l ++ r).takeWhile p = l ++ r.takeWhile p := by
  induction l with
  | nil => simp
  | cons a l ih =>
    simp [List.takeWhile_cons, hl a (by simp), ih (fun c hc => hl c (by simp [hc]))]

theorem takeWhile_head_false (p : Char → Bool) (r : Str)
    (hr : ∀ c, r.head? = some c → p c = false) : r.takeWhile p = [] := by
  cases r with
  | nil => rfl
  | cons a r => simp [List.takeWhile_cons, hr a rfl]

theorem dropWhile_head_false (p : Char → Bool) :
    ∀ (l : Str) (c : Char) (t : Str), l.dropWhile p = c :: t → p c = false := by
  intro l
  induction l with
  | nil => intro c t h; simp at h
  | cons a l ih =>
    intro c t h
    by_cases hpa : p a = true
    · rw [List.dropWhile_cons_of_pos hpa] at h; exact ih c t h
    · rw [List.dropWhile_cons_of_neg hpa] at h
      injection h with h1 _
      subst h1
      simpa using hpa

theorem splitext_append (f : Str) : (splitextFname f).1 ++ (splitextFname f).2 = f := by
  unfold splitextFname
  cases hdw : f.reverse.dropWhile (fun c => c ≠ '.') with
  | nil => simp [splitextCore]
  | cons c before =>
    have hc : c = '.' := by
      have := dropWhile_head_false (fun c => c ≠ '.') f.reverse c before hdw
      simpa using this
    subst hc
    by_cases hall : before.all (fun c => c = '.')
    · simp [splitextCore, hall]
    · simp only [splitextCore, hall, Bool.false_eq_true, if_false]
      have hsplit := List.takeWhile_append_dropWhile
        (p := fun c => c ≠ '.') (l := f.reverse)
      rw [hdw] at hsplit
      have h2 := congrArg List.reverse hsplit
      rw [List.reverse_append, List.reverse_cons, List.reverse_reverse] at h2
      rw [List.append_assoc, List.singleton_append] at h2
      exact h2

theorem firstRun_concat (pfx digits sfx : Str)
    (hp : ∀ c ∈ pfx, isDigitC c = false)
    (hd : digits ≠ []) (hdall : ∀ c ∈ digits, isDigitC c = true)
    (hs : ∀ c, sfx.head? = some c → isDigitC c = false) :
    firstRun (pfx ++ digits ++ sfx) = some digits := by
  induction pfx with
  | nil =>
    cases digits with
    | nil => exact absurd rfl hd
    | cons d ds =>
      have hdgt := hdall d (by simp)
      have hds : ∀ c ∈ ds, isDigitC c = true := fun c hc => hdall c (by simp [hc])
      simp only [List.nil_append, List.cons_append, firstRun, hdgt, if_true, List.append_eq]
      rw [takeWhile_all_append _ ds sfx hds, takeWhile_head_false _ sfx hs]
      simp
  | cons a p ih =>
    have ha := hp a (by simp)
    simp only [List.cons_append, firstRun, ha, Bool.false_eq_true, if_false]
    exact ih (fun c hc => hp c (by simp [hc]))

theorem miStep_init_le (pfx sfx : Str) (i : Nat) (name : Str) : i ≤ miStep pfx sfx i name := by
  unfold miStep
  split
  · split <;> omega
  · omega

theorem foldl_miStep_init_le (pfx sfx : Str) (names : List Str) :
    ∀ i : Nat, i ≤ names.foldl (miStep pfx sfx) i := by
  induction names with
  | nil => intro i; simp
  | cons a names ih =>
    intro i
    exact le_trans (miStep_init_le pfx sfx i a) (ih (miStep pfx sfx i a))

theorem max_index_ge (names : List Str) (pfx sfx : Str) (name : Str) (hmem : name ∈ names)
    (h1 : pfx.isPrefixOf name = true) (h2 : sfx.isSuffixOf name = true)
    (run : Str) (hrun : firstRun name = some run) :
    parseDigits run ≤ max_index names pfx sfx := by
  unfold max_index
  generalize 0 = i
  induction names generalizing i with
  | nil => simp at hmem
  | cons a names ih =>
    rcases List.mem_cons.mp hmem with rfl | hmem2
    · simp only [List.foldl_cons]
      refine le_trans ?_ (foldl_miStep_init_le pfx sfx names _)
      unfold miStep
      rw [if_pos (by simp [h1, h2]), hrun]
      exact le_max_right _ _
    · simp only [List.foldl_cons]
      exact ih hmem2 _

theorem numberedName_not_mem (names : List Str) (pfx : Str)
    (hp : ∀ c ∈ pfx, isDigitC c = false) :
    numberedName names pfx ∉ names := by
  intro hmem
  have h1 : pfx.isPrefixOf (numberedName names pfx) = true := by
    refine List.isPrefixOf_iff_prefix.mpr
      ⟨natToChars (max_index names pfx xmlSfx + 1) ++ xmlSfx, ?_⟩
    unfold numberedName
    exact (List.append_assoc _ _ _).symm
  have h2 : xmlSfx.isSuffixOf (numberedName names pfx) = true := by
    refine List.isSuffixOf_iff_suffix.mpr ⟨pfx ++ natToChars (max_index names pfx xmlSfx + 1), ?_⟩
    simp [numberedName]
  have hrun : firstRun (numberedName names pfx) = some (natToChars (max_index names pfx xmlSfx + 1)) := by
    unfold numberedName
    exact firstRun_concat pfx _ xmlSfx hp (natToChars_ne_nil _) (natToChars_digits _)
      (fun c hc => by
        simp only [xmlSfx] at hc
        injection hc with hc
        subst hc
        decide)
  have := max_index_ge names pfx xmlSfx _ hmem h1 h2 _ hrun
  rw [parse_natToChars] at this
  omega

theorem fbCand_inj (fname base ext : Str) (hbe : base ++ ext = fname) :
    Function.Injective (fbCand fname base ext) := by
  intro i j hij
  cases i with
  | zero =>
    cases j with
    | zero => rfl
    | succ j =>
      exfalso
      simp only [fbCand] at hij
      rw [← hbe] at hij
      have := congrArg List.length hij
      have hne := natToChars_ne_nil (j + 1)
      simp at this
      omega
  | succ i =>
    cases j with
    | zero =>
      exfalso
      simp only [fbCand] at hij
      rw [← hbe] at hij
      have := congrArg List.length hij
      have hne := natToChars_ne_nil (i + 1)
      simp at this
      omega
    | succ j =>
      simp only [fbCand] at hij
      have h1 := List.append_cancel_right hij
      have h2 := List.append_cancel_left h1
      injection h2 with _ h3
      have := natToChars_inj h3
      omega

theorem fbCand_exists_free (names : List Str) (fname base ext : Str)
    (hbe : base ++ ext = fname) :
    ∃ k, k < names.length + 1 ∧ fbCand fname base ext k ∉ names := by
  by_contra hcon
  push_neg at hcon
  have hsub : (Finset.range (names.length + 1)).image (fbCand fname base ext)
      ⊆ names.toFinset := by
    intro x hx
    simp only [Finset.mem_image, Finset.mem_range] at hx
    obtain ⟨k, hk, rfl⟩ := hx
    exact List.mem_toFinset.mpr (hcon k hk)
  have hcard := Finset.card_le_card hsub
  rw [Finset.card_image_of_injective _ (fbCand_inj fname base ext hbe),
    Finset.card_range] at hcard
  have := names.toFinset_card_le
  omega

theorem fbGo_not_mem (names : List Str) (fname base ext : Str) :
    ∀ f j : Nat, (∃ k, k < f ∧ fbCand fname base ext (j + k) ∉ names) →
      fbGo names fname base ext f j ∉ names := by
  intro f
  induction f with
  | zero =>
    rintro j ⟨k, hk, _⟩
    omega
  | succ f ih =>
    rintro j ⟨k, hk, hfree⟩
    by_cases hj : fbCand fname base ext j ∈ names
    · simp only [fbGo, if_pos hj]
      apply ih (j + 1)
      cases k with
      | zero => simp at hfree; exact absurd hj hfree
      | succ k =>
        refine ⟨k, by omega, ?_⟩
        have : j + 1 + k = j + (k + 1) := by omega
        rw [this]
        exact hfree
    · simp only [fbGo, if_neg hj]
      exact hj

/-- C6 amended, part one: the allocator never returns the name of a file
already present in the destination folder listing; part two: for the six
numbered folder kinds the returned name is the kind prefix, then one plus
the maximum first-digit-run value over the existing names that start with
the prefix and end with `.xml` (the code's matching, which is wider than
the exact `prefix\d+\.xml` convention of the claim). -/
theorem c6_name_allocator_amended (folder : Str) (names : List Str) (fname : Str) :
    pick_new_filename folder names fname ∉ names
    ∧ ∀ pfx, kindPfx folder = some pfx →
        pick_new_filename folder names fname
          = pfx ++ natToChars (max_index names pfx xmlSfx + 1) ++ xmlSfx := by
  constructor
  · unfold pick_new_filename
    split_ifs with h1 h2 h3 h4 h5 h6
    · exact numberedName_not_mem names _ (by decide)
    · exact numberedName_not_mem names _ (by decide)
    · exact numberedName_not_mem names _ (by decide)
    · exact numberedName_not_mem names _ (by decide)
    · exact numberedName_not_mem names _ (by decide)
    · exact numberedName_not_mem names _ (by decide)
    · refine fbGo_not_mem names fname _ _ (names.length + 1) 0 ?_
      obtain ⟨k, hk, hfree⟩ :=
        fbCand_exists_free names fname (splitextFname fname).1 (splitextFname fname).2
          (splitext_append fname)
      exact ⟨k, hk, by simpa using hfree⟩
  · intro pfx h
    unfold kindPfx at h
    split_ifs at h with h1 h2 h3 h4 h5 h6
    · injection h with h0; subst h0; subst h1; rfl
    · injection h with h0; subst h0; subst h2; rfl
    · injection h with h0; subst h0; subst h3; rfl
    · injection h with h0; subst h0; subst h4; rfl
    · injection h with h0; subst h0; subst h5; rfl
    · injection h with h0; subst h0; subst h6; rfl

/-- Witness for C6 amended at a concrete folder state. -/
theorem c6_witness :
    pick_new_filename ("slides".toList) [("slide3.xml".toList)] ("slide1.xml".toList)
        ∉ [("slide3.xml".toList)]
    ∧ pick_new_filename ("slides".toList) [("slide3.xml".toList)] ("slide1.xml".toList)
        = "slide4.xml".toList :=
  ⟨(c6_name_allocator_amended ("slides".toList) [("slide3.xml".toList)] ("slide1.xml".toList)).1,
   by decide⟩

/-- C6 counterexample: a destination folder whose only file is
`slidedeck_backup_7.xml` — which starts with `slide` and ends with `.xml`
but does not match the convention `slide\d+\.xml` — drives the returned
name to `slide8.xml`, while the claim's reading (maximum numeric index
over names matching the convention) predicts `slide1.xml`. -/
theorem c6_counterexample :
    pick_new_filename ("slides".toList) [("slidedeck_backup_7.xml".toList)] ("slide1.xml".toList)
        = "slide8.xml".toList
    ∧ ("slide".toList
          ++ natToChars (specConvMax [("slidedeck_backup_7.xml".toList)] ("slide".toList) + 1)
          ++ ".xml".toList)
        = "slide1.xml".toList
    ∧ ("slide8.xml".toList : Str) ≠ "slide1.xml".toList := by
  refine ⟨by decide, by decide, by decide⟩

/-! ## The dependency copier: basic unfoldings and map/log lemmas -/

theorem copy_zero (src : Tree) (ct_src : CT) (st : PState) (p : Str) :
    copy_part_with_dependencies src ct_src 0 st p = none := rfl

theorem copy_succ (src : Tree) (ct_src : CT) (fuel : Nat) (st : PState) (p : Str) :
    copy_part_with_dependencies src ct_src (fuel + 1) st p
      = copyStep src ct_src (copy_part_with_dependencies src ct_src fuel) st p := rfl

theorem lookupNm_append_some (m : List (Str × Str)) (ext : List (Str × Str)) (p : Str)
    (v : Str) (h : lookupNm m p = some v) : lookupNm (m ++ ext) p = some v := by
  induction m with
  | nil => simp [lookupNm] at h
  | cons kv m ih =>
    cases kv with
    | mk k w =>
      by_cases hk : k = p
      · subst hk
        simp only [lookupNm, if_pos rfl] at h ⊢
        exact h
      · simp only [lookupNm, if_neg hk] at h ⊢
        exact ih h

theorem lookupNm_append_fresh (m : List (Str × Str)) (p : Str) (d : Str)
    (h : lookupNm m p = none) : lookupNm (m ++ [(p, d)]) p = some d := by
  induction m with
  | nil => simp [lookupNm]
  | cons kv m ih =>
    cases kv with
    | mk k w =>
      by_cases hk : k = p
      · subst hk; simp [lookupNm] at h
      · simp only [List.cons_append, lookupNm, if_neg hk] at h ⊢
        exact ih h

theorem countCopies_append (log : List (Str × Str)) (e : Str × Str) (p : Str) :
    countCopies (log ++ [e]) p
      = countCopies log p + (if e.1 = p then 1 else 0) := by
  unfold countCopies
  rw [List.filter_append]
  by_cases he : e.1 = p <;> simp [he]

/-- C9: a request for a source part path that is not memoized and does
not exist on disk returns the path unchanged with the whole pass state —
name map, destination tree, destination content-type manifest (and the
untouched source manifest parameter) — unmodified, and raises no error
(any nonzero recursion budget suffices). -/
theorem c9_missing_part_noop (src : Tree) (ct_src : CT) (fuel : Nat) (st : PState) (p : Str)
    (hmiss : lookupNm st.nameMap p = none) (hnofile : lookupFile src p = none) :
    copy_part_with_dependencies src ct_src (fuel + 1) st p = some (p, st) := by
  rw [copy_succ]
  unfold copyStep
  rw [hmiss, hnofile]

/-- Witness for C9 at a concrete state: an empty source tree and a fresh
pass state. -/
theorem c9_witness :
    copy_part_with_dependencies [] ⟨[], []⟩ 1 emptyPState ("slides/slide1.xml".toList)
      = some ("slides/slide1.xml".toList, emptyPState) :=
  c9_missing_part_noop [] ⟨[], []⟩ 0 emptyPState ("slides/slide1.xml".toList) rfl rfl

/-! ## Memoization of the copier (claim C1) -/

theorem processRels_preserves
    (copyF : PState → Str → Option (Str × PState))
    (hF : ∀ st q r s', copyF st q = some (r, s') →
      ∀ p v, lookupNm st.nameMap p = some v →
        lookupNm s'.nameMap p = some v ∧ countCopies s'.copyLog p = countCopies st.copyLog p)
    (part_rel folder : Str) :
    ∀ (rl : List Rel) (st : PState) (out : List Rel) (changed : Bool)
      (st' : PState) (out' : List Rel) (changed' : Bool),
      processRels copyF part_rel folder st rl out changed = some (st', out', changed') →
      ∀ p v, lookupNm st.nameMap p = some v →
        lookupNm st'.nameMap p = some v ∧ countCopies st'.copyLog p = countCopies st.copyLog p := by
  intro rl
  induction rl with
  | nil =>
    intro st out changed st' out' changed' h p v hv
    unfold processRels at h
    injection h with h1
    obtain rfl : st' = st := ((congrArg Prod.fst h1).symm : st' = st)
    exact ⟨hv, rfl⟩
  | cons rel rest ih =>
    intro st out changed st' out' changed' h p v hv
    unfold processRels at h
    by_cases hdd : ddSlash.isPrefixOf rel.target
    · rw [if_pos hdd] at h
      cases hcf : copyF st (targOf part_rel rel.target) with
      | none => simp only [hcf] at h; exact Option.noConfusion h
      | some pr =>
        obtain ⟨dep, st2⟩ := pr
        simp only [hcf] at h
        obtain ⟨hl, hc⟩ := hF st _ dep st2 hcf p v hv
        obtain ⟨hl2, hc2⟩ := ih st2 _ _ _ _ _ h p v hl
        exact ⟨hl2, by omega⟩
    · rw [if_neg hdd] at h
      exact ih st _ _ _ _ _ h p v hv

theorem afterCopy_nameMap (st : PState) (q d : Str) (entry : Entry) :
    (afterCopy st q d entry).nameMap = st.nameMap ++ [(q, d)] := rfl

theorem afterCopy_copyLog (st : PState) (q d : Str) (entry : Entry) :
    (afterCopy st q d entry).copyLog = st.copyLog ++ [(q, d)] := rfl

theorem afterCT_nameMap (ct_src : CT) (st : PState) (folder d : Str) :
    (afterCT ct_src st folder d).nameMap = st.nameMap := by
  unfold afterCT; cases ctOverrideFor folder <;> rfl

theorem afterCT_copyLog (ct_src : CT) (st : PState) (folder d : Str) :
    (afterCT ct_src st folder d).copyLog = st.copyLog := by
  unfold afterCT; cases ctOverrideFor folder <;> rfl

theorem withRels_nameMap (ct_src : CT) (st : PState) (q : Str) (entry : Entry) (rl : List Rel) :
    (withRels ct_src st q entry rl).nameMap = st.nameMap ++ [(q, newDstRel st q)] := by
  show (afterCT ct_src (afterCopy st q (newDstRel st q) entry) (folderOf q) (newDstRel st q)).nameMap
    = st.nameMap ++ [(q, newDstRel st q)]
  rw [afterCT_nameMap, afterCopy_nameMap]

theorem withRels_copyLog (ct_src : CT) (st : PState) (q : Str) (entry : Entry) (rl : List Rel) :
    (withRels ct_src st q entry rl).copyLog = st.copyLog ++ [(q, newDstRel st q)] := by
  show (afterCT ct_src (afterCopy st q (newDstRel st q) entry) (folderOf q) (newDstRel st q)).copyLog
    = st.copyLog ++ [(q, newDstRel st q)]
  rw [afterCT_copyLog, afterCopy_copyLog]

theorem copy_preserves_mapped (src : Tree) (ct_src : CT) :
    ∀ (fuel : Nat) (st : PState) (q r : Str) (s' : PState),
      copy_part_with_dependencies src ct_src fuel st q = some (r, s') →
      ∀ p v, lookupNm st.nameMap p = some v →
        lookupNm s'.nameMap p = some v ∧ countCopies s'.copyLog p = countCopies st.copyLog p := by
  intro fuel
  induction fuel with
  | zero => intro st q r s' h; cases h
  | succ fuel ih =>
    intro st q r s' h p v hv
    rw [copy_succ] at h
    unfold copyStep at h
    cases hm : lookupNm st.nameMap q with
    | some w =>
      simp only [hm] at h
      injection h with h1
      obtain rfl : s' = st := ((congrArg Prod.snd h1).symm : s' = st)
      exact ⟨hv, rfl⟩
    | none =>
      simp only [hm] at h
      have hqp : q ≠ p := fun he => by rw [he, hv] at hm; cases hm
      cases hf : lookupFile src q with
      | none =>
        simp only [hf] at h
        injection h with h1
        obtain rfl : s' = st := ((congrArg Prod.snd h1).symm : s' = st)
        exact ⟨hv, rfl⟩
      | some entry =>
        simp only [hf] at h
        cases hrl : lookupFile src (relsRelOf (folderOf q) (nameOf q)) with
        | none =>
          simp only [hrl] at h
          injection h with h1
          obtain rfl := ((congrArg Prod.snd h1).symm :
            s' = afterCT ct_src (afterCopy st q (newDstRel st q) entry)
                  (folderOf q) (newDstRel st q))
          constructor
          · rw [afterCT_nameMap, afterCopy_nameMap]
            exact lookupNm_append_some _ _ _ _ hv
          · rw [afterCT_copyLog, afterCopy_copyLog, countCopies_append]
            simp [hqp]
        | some e2 =>
          cases e2 with
          | bin b =>
            simp only [hrl] at h
            injection h with h1
            obtain rfl := ((congrArg Prod.snd h1).symm :
              s' = afterCT ct_src (afterCopy st q (newDstRel st q) entry)
                    (folderOf q) (newDstRel st q))
            constructor
            · rw [afterCT_nameMap, afterCopy_nameMap]
              exact lookupNm_append_some _ _ _ _ hv
            · rw [afterCT_copyLog, afterCopy_copyLog, countCopies_append]
              simp [hqp]
          | rels rl =>
            simp only [hrl] at h
            cases hpr : processRels (copy_part_with_dependencies src ct_src fuel) q (folderOf q)
                (withRels ct_src st q entry rl) rl [] false with
            | none => simp only [hpr] at h; exact Option.noConfusion h
            | some tr =>
              obtain ⟨st4, outRels, changed⟩ := tr
              simp only [hpr] at h
              injection h with h1
              have hs2 : s' = (if changed = true then
                  { st4 with dst := setFile st4.dst (relsRelOf (folderOf q) (nameOf q)) (Entry.rels outRels) }
                  else st4) :=
                ((congrArg Prod.snd h1).symm : s' = _)
              have hw : lookupNm (withRels ct_src st q entry rl).nameMap p = some v := by
                rw [withRels_nameMap]
                exact lookupNm_append_some _ _ _ _ hv
              have hwl : countCopies (withRels ct_src st q entry rl).copyLog p
                  = countCopies st.copyLog p := by
                rw [withRels_copyLog, countCopies_append]
                simp [hqp]
              obtain ⟨h4, h4l⟩ := processRels_preserves _ ih q (folderOf q) rl _ [] false
                st4 outRels changed hpr p v hw
              have hsn : s'.nameMap = st4.nameMap ∧ s'.copyLog = st4.copyLog := by
                rw [hs2]
                cases changed <;> simp
              rw [hsn.1, hsn.2]
              exact ⟨h4, by omega⟩

/-- C1: in one source-input pass (same `name_map` threaded through both
calls), a first successful request for a source part path that exists on
disk and is not yet memoized, followed by a second request for the same
path, returns the identical destination path both times, leaves the state
of the pass untouched on the second call, and logs exactly one copy of
the part's bytes across both calls. -/
theorem c1_copy_idempotent (src : Tree) (ct_src : CT) (f1 f2 : Nat) (st : PState) (p : Str)
    (r1 r2 : Str) (s1 s2 : PState)
    (hmiss : lookupNm st.nameMap p = none)
    (hex : (lookupFile src p).isSome = true)
    (h1 : copy_part_with_dependencies src ct_src f1 st p = some (r1, s1))
    (h2 : copy_part_with_dependencies src ct_src f2 s1 p = some (r2, s2)) :
    r2 = r1 ∧ s2 = s1 ∧ countCopies s2.copyLog p = countCopies st.copyLog p + 1 := by
  have key1 : lookupNm s1.nameMap p = some r1
      ∧ countCopies s1.copyLog p = countCopies st.copyLog p + 1 := by
    cases f1 with
    | zero => cases h1
    | succ fuel =>
      rw [copy_succ] at h1
      unfold copyStep at h1
      simp only [hmiss] at h1
      cases hf : lookupFile src p with
      | none => rw [hf] at hex; simp at hex
      | some entry =>
        simp only [hf] at h1
        have hbase_map : lookupNm (st.nameMap ++ [(p, newDstRel st p)]) p
            = some (newDstRel st p) := lookupNm_append_fresh _ _ _ hmiss
        have hbase_log : countCopies (st.copyLog ++ [(p, newDstRel st p)]) p
            = countCopies st.copyLog p + 1 := by
          rw [countCopies_append]; simp
        cases hrl : lookupFile src (relsRelOf (folderOf p) (nameOf p)) with
        | none =>
          simp only [hrl] at h1
          injection h1 with h1'
          obtain rfl : r1 = newDstRel st p := ((congrArg Prod.fst h1').symm : r1 = _)
          obtain rfl := ((congrArg Prod.snd h1').symm :
            s1 = afterCT ct_src (afterCopy st p (newDstRel st p) entry)
                  (folderOf p) (newDstRel st p))
          constructor
          · rw [afterCT_nameMap, afterCopy_nameMap]; exact hbase_map
          · rw [afterCT_copyLog, afterCopy_copyLog]; exact hbase_log
        | some e2 =>
          cases e2 with
          | bin b =>
            simp only [hrl] at h1
            injection h1 with h1'
            obtain rfl : r1 = newDstRel st p := ((congrArg Prod.fst h1').symm : r1 = _)
            obtain rfl := ((congrArg Prod.snd h1').symm :
              s1 = afterCT ct_src (afterCopy st p (newDstRel st p) entry)
                    (folderOf p) (newDstRel st p))
            constructor
            · rw [afterCT_nameMap, afterCopy_nameMap]; exact hbase_map
            · rw [afterCT_copyLog, afterCopy_copyLog]; exact hbase_log
          | rels rl =>
            simp only [hrl] at h1
            cases hpr : processRels (copy_part_with_dependencies src ct_src fuel) p (folderOf p)
                (withRels ct_src st p entry rl) rl [] false with
            | none => simp only [hpr] at h1; exact Option.noConfusion h1
            | some tr =>
              obtain ⟨st4, outRels, changed⟩ := tr
              simp only [hpr] at h1
              injection h1 with h1'
              obtain rfl : r1 = newDstRel st p := ((congrArg Prod.fst h1').symm : r1 = _)
              have hs2 : s1 = (if changed = true then
                  { st4 with dst := setFile st4.dst (relsRelOf (folderOf p) (nameOf p)) (Entry.rels outRels) }
                  else st4) :=
                ((congrArg Prod.snd h1').symm : s1 = _)
              have hw : lookupNm (withRels ct_src st p entry rl).nameMap p
                  = some (newDstRel st p) := by
                rw [withRels_nameMap]; exact hbase_map
              have hwl : countCopies (withRels ct_src st p entry rl).copyLog p
                  = countCopies st.copyLog p + 1 := by
                rw [withRels_copyLog]; exact hbase_log
              obtain ⟨h4, h4l⟩ := processRels_preserves _ (copy_preserves_mapped src ct_src fuel)
                p (folderOf p) rl _ [] false st4 outRels changed hpr p _ hw
              have hsn : s1.nameMap = st4.nameMap ∧ s1.copyLog = st4.copyLog := by
                rw [hs2]; cases changed <;> simp
              rw [hsn.1, hsn.2]
              exact ⟨h4, by omega⟩
  obtain ⟨k1, k2⟩ := key1
  cases f2 with
  | zero => cases h2
  | succ g =>
    rw [copy_succ] at h2
    unfold copyStep at h2
    simp only [k1] at h2
    injection h2 with h2'
    obtain rfl : r2 = r1 := ((congrArg Prod.fst h2').symm : r2 = r1)
    obtain rfl : s2 = s1 := ((congrArg Prod.snd h2').symm : s2 = s1)
    exact ⟨rfl, rfl, k2⟩

/-- Witness for C1: copying `media/img.png` twice from a one-file source
tree into a fresh pass records exactly one copy event. -/
theorem c1_witness :
    countCopies c1res.2.copyLog ("media/img.png".toList)
      = countCopies emptyPState.copyLog ("media/img.png".toList) + 1 :=
  (c1_copy_idempotent c1src ⟨[], []⟩ 2 2 emptyPState ("media/img.png".toList)
    c1res.1 c1res.1 c1res.2 c1res.2 rfl rfl rfl rfl).2.2

/-! ## Path arithmetic: splitting, joining and normalization -/

theorem splitSlash_ne_nil (s : Str) : splitSlash s ≠ [] := by
  cases s with
  | nil => simp [splitSlash]
  | cons c rest =>
    unfold splitSlash
    by_cases hc : c = '/'
    · simp [hc]
    · rw [if_neg hc]
      cases splitSlash rest <;> simp

theorem splitSlash_no_slash (s : Str) : ∀ g ∈ splitSlash s, '/' ∉ g := by
  induction s with
  | nil => intro g hg; simp [splitSlash] at hg; simp [hg]
  | cons c rest ih =>
    intro g hg
    unfold splitSlash at hg
    by_cases hc : c = '/'
    · rw [if_pos hc] at hg
      rcases List.mem_cons.mp hg with rfl | hg2
      · simp
      · exact ih g hg2
    · rw [if_neg hc] at hg
      cases hsp : splitSlash rest with
      | nil => exact absurd hsp (splitSlash_ne_nil rest)
      | cons g0 gs =>
        rw [hsp] at hg
        rcases List.mem_cons.mp hg with rfl | hg2
        · intro hmem
          rcases List.mem_cons.mp hmem with rfl | hmem2
          · exact hc rfl
          · exact ih g0 (by rw [hsp]; simp) hmem2
        · exact ih g (by rw [hsp]; simp [hg2])

theorem splitSlash_single (c : Str) (hc : '/' ∉ c) : splitSlash c = [c] := by
  induction c with
  | nil => rfl
  | cons a rest ih =>
    unfold splitSlash
    rw [if_neg (by intro h; exact hc (by simp [h]))]
    rw [ih (by intro h; exact hc (by simp [h]))]

theorem splitSlash_append (c s : Str) (hc : '/' ∉ c) :
    splitSlash (c ++ s)
      = (c ++ (splitSlash s).headI) :: (splitSlash s).tail := by
  induction c with
  | nil =>
    simp only [List.nil_append]
    cases hsp : splitSlash s with
    | nil => exact absurd hsp (splitSlash_ne_nil s)
    | cons g gs => simp
  | cons a rest ih =>
    have ha : a ≠ '/' := fun h => hc (by simp [h])
    have hr : '/' ∉ rest := fun h => hc (by simp [h])
    simp only [List.cons_append]
    rw [show splitSlash (a :: (rest ++ s))
        = (match splitSlash (rest ++ s) with
           | [] => [[a]]
           | g :: gs => (a :: g) :: gs) from by
      unfold splitSlash; rw [if_neg ha]; rw [← splitSlash.eq_def]]
    rw [ih hr]

/-- Validity of a path component: nonempty, not a single dot, and free of
slashes (what `pComps` produces and `joinPath` can render back). -/
def validComp (c : Str) : Prop := c ≠ [] ∧ c ≠ ".".toList ∧ '/' ∉ c

theorem pComps_valid (s : Str) : ∀ c ∈ pComps s, validComp c := by
  intro c hc
  unfold pComps at hc
  obtain ⟨hmem, hcond⟩ := List.mem_filter.mp hc
  simp only [Bool.and_eq_true, decide_eq_true_eq, bne_iff_ne, ne_eq] at hcond
  exact ⟨by simpa using hcond.1, by simpa using hcond.2, splitSlash_no_slash s c hmem⟩

theorem pComps_joinPath : ∀ l : List Str, (∀ c ∈ l, validComp c) → pComps (joinPath l) = l := by
  intro l
  induction l with
  | nil => intro _; rfl
  | cons c cs ih =>
    intro hv
    obtain ⟨hne, hdot, hsl⟩ := hv c (by simp)
    have hcond : (decide (c ≠ []) && decide (c ≠ ".".toList)) = true := by
      simp only [Bool.and_eq_true, decide_eq_true_eq]
      exact ⟨hne, hdot⟩
    cases cs with
    | nil =>
      show pComps c = [c]
      unfold pComps
      rw [splitSlash_single c hsl]
      rw [List.filter_cons, if_pos hcond]
      rfl
    | cons c2 cs2 =>
      show pComps (c ++ '/' :: joinPath (c2 :: cs2)) = c :: c2 :: cs2
      unfold pComps
      rw [splitSlash_append c ('/' :: joinPath (c2 :: cs2)) hsl]
      rw [show splitSlash ('/' :: joinPath (c2 :: cs2))
          = [] :: splitSlash (joinPath (c2 :: cs2)) from rfl]
      simp only [List.headI, List.tail, List.append_nil]
      rw [List.filter_cons, if_pos hcond]
      have := ih (fun d hd => hv d (by simp [hd]))
      unfold pComps at this
      rw [this]

theorem foldl_osStep_none (l : List Str) : l.foldl osStep none = none := by
  induction l with
  | nil => rfl
  | cons c cs ih => simpa [osStep] using ih

theorem npStep_keeps_dd : ∀ (cs : List Str) (st : List Str),
    "..".toList ∈ st → "..".toList ∈ cs.foldl npStep st := by
  intro cs
  induction cs with
  | nil => intro st h; exact h
  | cons c cs ih =>
    intro st h
    simp only [List.foldl_cons]
    apply ih
    unfold npStep
    by_cases hc : c = "..".toList
    · rw [if_pos hc]
      cases hlast : st.getLast? with
      | none =>
        rw [List.getLast?_eq_none_iff] at hlast
        rw [hlast] at h
        simp at h
      | some l =>
        show "..".toList ∈ (if l = "..".toList then st ++ [c] else st.dropLast)
        by_cases hl : l = "..".toList
        · rw [if_pos hl]
          exact List.mem_append.mpr (Or.inl h)
        · rw [if_neg hl]
          have hst : st ≠ [] := by
            intro he
            rw [he] at hlast
            simp at hlast
          have hlval := List.getLast?_eq_getLast st hst
          rw [hlast] at hlval
          injection hlval with hlv
          rw [← List.dropLast_append_getLast hst] at h
          rcases List.mem_append.mp h with h2 | h2
          · exact h2
          · rw [List.mem_singleton] at h2
            rw [← hlv] at h2
            exact absurd h2.symm hl
    · rw [if_neg hc]
      exact List.mem_append.mpr (Or.inl h)

theorem npStep_push (st : List Str) (c : Str) (hc : c ≠ "..".toList) :
    npStep st c = st ++ [c] := by
  unfold npStep
  rw [if_neg hc]

theorem npStep_dd_pop (st : List Str) (hne : st ≠ []) (hst : "..".toList ∉ st) :
    npStep st ("..".toList) = st.dropLast := by
  unfold npStep
  rw [if_pos rfl]
  cases hlast : st.getLast? with
  | none =>
    rw [List.getLast?_eq_none_iff] at hlast
    exact absurd hlast hne
  | some l =>
    show (if l = "..".toList then st ++ ["..".toList] else st.dropLast) = st.dropLast
    rw [if_neg]
    intro he
    subst he
    have hlval := List.getLast?_eq_getLast st hne
    rw [hlast] at hlval
    injection hlval with hlv
    apply hst
    rw [hlv]
    exact List.getLast_mem hne

theorem osStep_push (st : List Str) (c : Str) (hc : c ≠ "..".toList) :
    osStep (some st) c = some (st ++ [c]) := by
  show (if c = "..".toList then
      (match st with
       | [] => none
       | _ => some st.dropLast)
    else some (st ++ [c])) = some (st ++ [c])
  rw [if_neg hc]

theorem osStep_dd_pop (s0 : Str) (srest : List Str) :
    osStep (some (s0 :: srest)) ("..".toList) = some ((s0 :: srest).dropLast) := rfl

theorem osStack_np : ∀ (cs : List Str) (st out : List Str), "..".toList ∉ st →
    cs.foldl osStep (some st) = some out →
    cs.foldl npStep st = out ∧ "..".toList ∉ out := by
  intro cs
  induction cs with
  | nil =>
    intro st out hst h
    simp only [List.foldl_nil] at h ⊢
    injection h with h1
    exact ⟨h1, h1 ▸ hst⟩
  | cons c cs ih =>
    intro st out hst h
    simp only [List.foldl_cons] at h ⊢
    by_cases hc : c = "..".toList
    · subst hc
      cases st with
      | nil =>
        rw [show osStep (some []) ("..".toList) = none from rfl, foldl_osStep_none] at h
        exact Option.noConfusion h
      | cons s0 srest =>
        rw [osStep_dd_pop] at h
        rw [npStep_dd_pop _ (by simp) hst]
        refine ih _ _ ?_ h
        intro hm
        exact hst ((List.dropLast_prefix (s0 :: srest)).subset hm)
    · rw [osStep_push st c hc] at h
      rw [npStep_push st c hc]
      refine ih _ _ ?_ h
      intro hm
      rcases List.mem_append.mp hm with h2 | h2
      · exact hst h2
      · rw [List.mem_singleton] at h2
        exact hc h2.symm

theorem npStack_os : ∀ (cs : List Str) (st : List Str), "..".toList ∉ st →
    "..".toList ∉ cs.foldl npStep st →
    cs.foldl osStep (some st) = some (cs.foldl npStep st) := by
  intro cs
  induction cs with
  | nil => intro st _ _; rfl
  | cons c cs ih =>
    intro st hst hout
    simp only [List.foldl_cons] at hout ⊢
    by_cases hc : c = "..".toList
    · subst hc
      cases st with
      | nil =>
        exfalso
        apply hout
        rw [show npStep [] ("..".toList) = ["..".toList] from rfl]
        exact npStep_keeps_dd cs _ (by simp)
      | cons s0 srest =>
        rw [npStep_dd_pop _ (by simp) hst] at hout ⊢
        rw [osStep_dd_pop]
        refine ih _ ?_ hout
        intro hm
        exact hst ((List.dropLast_prefix (s0 :: srest)).subset hm)
    · rw [npStep_push st c hc] at hout ⊢
      rw [osStep_push st c hc]
      refine ih _ ?_ hout
      intro hm
      rcases List.mem_append.mp hm with h2 | h2
      · exact hst h2
      · rw [List.mem_singleton] at h2
        exact hc h2.symm

theorem osNorm_np (s : Str) (l : List Str) (h : osNorm s = some l) :
    npComps s = l ∧ "..".toList ∉ l :=
  osStack_np (pComps s) [] l (by simp) h

theorem np_osNorm (s : Str) (h : "..".toList ∉ npComps s) :
    osNorm s = some (npComps s) :=
  npStack_os (pComps s) [] (by simp) h

theorem osStep_pops : ∀ (k : Nat) (st : List Str), k ≤ st.length →
    (List.replicate k ("..".toList)).foldl osStep (some st)
      = some (st.take (st.length - k)) := by
  intro k
  induction k with
  | zero =>
    intro st _
    simp
  | succ k ih =>
    intro st hk
    cases st with
    | nil => simp at hk
    | cons s0 srest =>
      rw [List.replicate_succ, List.foldl_cons, osStep_dd_pop,
        ih _ (by simp only [List.length_dropLast, List.length_cons] at hk ⊢; omega)]
      congr 1
      rw [List.dropLast_eq_take, List.take_take]
      congr 1
      simp only [List.length_take, List.length_dropLast, List.length_cons]
      omega

theorem osStep_pops_over : ∀ (k : Nat) (st : List Str), st.length < k →
    (List.replicate k ("..".toList)).foldl osStep (some st) = none := by
  intro k
  induction k with
  | zero => intro st h; simp at h
  | succ k ih =>
    intro st hk
    cases st with
    | nil =>
      rw [List.replicate_succ, List.foldl_cons,
        show osStep (some []) ("..".toList) = none from rfl, foldl_osStep_none]
    | cons s0 srest =>
      rw [List.replicate_succ, List.foldl_cons, osStep_dd_pop]
      exact ih _ (by simp at hk ⊢; omega)

theorem osStep_pushes : ∀ (b : List Str) (st : List Str), "..".toList ∉ b →
    b.foldl osStep (some st) = some (st ++ b) := by
  intro b
  induction b with
  | nil => intro st _; simp
  | cons c bs ih =>
    intro st hb
    rw [List.foldl_cons, osStep_push st c (fun h => hb (by rw [h]; exact List.mem_cons_self _ _)),
      ih _ (fun h2 => hb (List.mem_cons_of_mem c h2))]
    simp

theorem commonPfxLen_le_left : ∀ a b : List Str, commonPfxLen a b ≤ a.length := by
  intro a
  induction a with
  | nil => intro b; cases b <;> simp [commonPfxLen]
  | cons x as ih =>
    intro b
    cases b with
    | nil => simp [commonPfxLen]
    | cons y bs =>
      unfold commonPfxLen
      by_cases hxy : x = y
      · rw [if_pos hxy]
        simp only [List.length_cons]
        exact Nat.succ_le_succ (ih bs)
      · rw [if_neg hxy]; simp

theorem commonPfxLen_le_right : ∀ a b : List Str, commonPfxLen a b ≤ b.length := by
  intro a
  induction a with
  | nil => intro b; cases b <;> simp [commonPfxLen]
  | cons x as ih =>
    intro b
    cases b with
    | nil => simp [commonPfxLen]
    | cons y bs =>
      unfold commonPfxLen
      by_cases hxy : x = y
      · rw [if_pos hxy]
        simp only [List.length_cons]
        exact Nat.succ_le_succ (ih bs)
      · rw [if_neg hxy]; simp

theorem take_commonPfxLen : ∀ a b : List Str,
    a.take (commonPfxLen a b) = b.take (commonPfxLen a b) := by
  intro a
  induction a with
  | nil => intro b; cases b <;> simp [commonPfxLen]
  | cons x as ih =>
    intro b
    cases b with
    | nil => simp [commonPfxLen]
    | cons y bs =>
      unfold commonPfxLen
      by_cases hxy : x = y
      · rw [if_pos hxy]
        simp only [List.take_succ_cons]
        rw [hxy, ih bs]
      · rw [if_neg hxy]; simp

theorem mem_of_getLastQ (l : List Str) (a : Str) (h : l.getLast? = some a) : a ∈ l := by
  have hne : l ≠ [] := by intro he; rw [he] at h; simp at h
  obtain ⟨h2, rfl⟩ := List.mem_getLast?_eq_getLast (by rw [h]; simp : a ∈ l.getLast?)
  exact List.getLast_mem h2

theorem npStep_elems (st : List Str) (c : Str) (x : Str) (hx : x ∈ npStep st c) :
    x ∈ st ∨ x = c := by
  unfold npStep at hx
  by_cases hc : c = "..".toList
  · rw [if_pos hc] at hx
    cases hlast : st.getLast? with
    | none =>
      simp only [hlast] at hx
      rw [List.mem_singleton] at hx
      exact Or.inr hx
    | some l =>
      simp only [hlast] at hx
      by_cases hl : l = "..".toList
      · rw [if_pos hl] at hx
        rcases List.mem_append.mp hx with h2 | h2
        · exact Or.inl h2
        · rw [List.mem_singleton] at h2
          exact Or.inr h2
      · rw [if_neg hl] at hx
        exact Or.inl ((List.dropLast_prefix st).subset hx)
  · rw [if_neg hc] at hx
    rcases List.mem_append.mp hx with h2 | h2
    · exact Or.inl h2
    · rw [List.mem_singleton] at h2
      exact Or.inr h2

theorem foldl_npStep_mem : ∀ (cs : List Str) (st : List Str) (x : Str),
    x ∈ cs.foldl npStep st → x ∈ st ∨ x ∈ cs := by
  intro cs
  induction cs with
  | nil => intro st x hx; exact Or.inl hx
  | cons c cs ih =>
    intro st x hx
    simp only [List.foldl_cons] at hx
    rcases ih _ x hx with h2 | h2
    · rcases npStep_elems st c x h2 with h3 | h3
      · exact Or.inl h3
      · exact Or.inr (by simp [h3])
    · exact Or.inr (by simp [h2])

theorem npComps_sub_pComps (s : Str) (x : Str) (hx : x ∈ npComps s) : x ∈ pComps s := by
  rcases foldl_npStep_mem (pComps s) [] x hx with h2 | h2
  · simp at h2
  · exact h2

/-- Shape invariant of normalized components: all `..` segments lead. -/
def ddShape (l : List Str) : Prop :=
  ∃ a reals, l = List.replicate a ("..".toList) ++ reals ∧ "..".toList ∉ reals

theorem npStep_shape (st : List Str) (c : Str) (h : ddShape st) : ddShape (npStep st c) := by
  obtain ⟨a, reals, rfl, hnr⟩ := h
  by_cases hc : c = "..".toList
  · subst hc
    cases reals with
    | nil =>
      cases a with
      | zero =>
        show ddShape (npStep ([] : List Str) ("..".toList))
        rw [show npStep ([] : List Str) ("..".toList) = ["..".toList] from rfl]
        exact ⟨1, [], by simp, by simp⟩
      | succ a2 =>
        have hlast : (List.replicate (a2 + 1) ("..".toList) ++ ([] : List Str)).getLast?
            = some ("..".toList) := by
          rw [List.append_nil, List.replicate_succ' a2,
            List.getLast?_append_of_ne_nil _ (by simp)]
          rfl
        unfold npStep
        rw [if_pos rfl]
        simp only [hlast]
        first
          | rw [if_pos rfl]
          | rw [if_pos trivial]
        exact ⟨a2 + 2, [], by rw [List.append_nil, List.replicate_succ' (a2 + 1)]; simp,
          by simp⟩
    | cons r rs =>
      have hne : (r :: rs : List Str) ≠ [] := by simp
      have hlast : (List.replicate a ("..".toList) ++ r :: rs).getLast? = (r :: rs).getLast? :=
        List.getLast?_append_of_ne_nil _ hne
      cases hrl : (r :: rs : List Str).getLast? with
      | none =>
        rw [List.getLast?_eq_none_iff] at hrl
        exact absurd hrl hne
      | some g =>
        have hgmem := mem_of_getLastQ _ g hrl
        have hgne : g ≠ "..".toList := fun he => hnr (he ▸ hgmem)
        unfold npStep
        rw [if_pos rfl]
        rw [hrl] at hlast
        simp only [hlast]
        rw [if_neg hgne]
        rw [List.dropLast_append_of_ne_nil _ hne]
        exact ⟨a, (r :: rs).dropLast, rfl, fun hm => hnr ((List.dropLast_prefix _).subset hm)⟩
  · rw [npStep_push _ _ hc, List.append_assoc]
    refine ⟨a, reals ++ [c], rfl, ?_⟩
    intro hm
    rcases List.mem_append.mp hm with h2 | h2
    · exact hnr h2
    · rw [List.mem_singleton] at h2
      exact hc h2.symm

theorem npComps_shape (s : Str) : ddShape (npComps s) := by
  have : ∀ (cs st : List Str), ddShape st → ddShape (cs.foldl npStep st) := by
    intro cs
    induction cs with
    | nil => intro st h; exact h
    | cons c cs ih =>
      intro st h
      simp only [List.foldl_cons]
      exact ih _ (npStep_shape st c h)
  exact this (pComps s) [] ⟨0, [], rfl, by simp⟩

theorem dd_osNorm_none (s : Str) (h : "..".toList ∈ npComps s) : osNorm s = none := by
  cases hos : osNorm s with
  | none => rfl
  | some l =>
    obtain ⟨he, hnd⟩ := osNorm_np s l hos
    rw [he] at h
    exact absurd h hnd

/-- Correctness of the relative-path computation: resolving
`relpath(p, start)` from `start` reaches exactly what `p` resolves to,
whenever `start` itself resolves inside the tree. -/
theorem relpath_resolve (dep folder : Str) (fc : List Str) (hf : osNorm folder = some fc) :
    resolveFrom folder (relpathStr dep folder) = osNorm dep := by
  obtain ⟨hnpf, hddf⟩ := osNorm_np folder fc hf
  have hrc : relpathComps dep folder
      = List.replicate (fc.length - commonPfxLen fc (npComps dep)) ("..".toList)
        ++ (npComps dep).drop (commonPfxLen fc (npComps dep)) := by
    unfold relpathComps
    rw [hnpf]
  unfold relpathStr
  by_cases hresnil : relpathComps dep folder = []
  · rw [if_pos hresnil]
    rw [hrc] at hresnil
    obtain ⟨hrep, hdrop⟩ := List.append_eq_nil.mp hresnil
    have h0 : fc.length - commonPfxLen fc (npComps dep) = 0 := by
      have := congrArg List.length hrep
      simpa using this
    have hple : (npComps dep).length ≤ commonPfxLen fc (npComps dep) :=
      List.drop_eq_nil_iff.mp hdrop
    have hile : commonPfxLen fc (npComps dep) ≤ fc.length := commonPfxLen_le_left _ _
    have hile2 : commonPfxLen fc (npComps dep) ≤ (npComps dep).length :=
      commonPfxLen_le_right _ _
    have hpceq : npComps dep = fc := by
      have ht := take_commonPfxLen fc (npComps dep)
      rw [List.take_of_length_le hple] at ht
      rw [← ht, List.take_of_length_le (by omega)]
    show osNormComps (pComps folder ++ pComps (".".toList)) = osNorm dep
    rw [show pComps (".".toList) = ([] : List Str) from rfl, List.append_nil]
    rw [show osNormComps (pComps folder) = osNorm folder from rfl, hf]
    rw [np_osNorm dep (by rw [hpceq]; exact hddf), hpceq]
  · rw [if_neg hresnil]
    show osNormComps (pComps folder ++ pComps (joinPath (relpathComps dep folder))) = osNorm dep
    have hvalid : ∀ c ∈ relpathComps dep folder, validComp c := by
      intro c hc
      rw [hrc] at hc
      rcases List.mem_append.mp hc with h2 | h2
      · rw [List.eq_of_mem_replicate h2]
        exact ⟨by simp, by simp, by decide⟩
      · exact pComps_valid dep c (npComps_sub_pComps dep c (List.mem_of_mem_drop h2))
    rw [pComps_joinPath _ hvalid]
    unfold osNormComps
    rw [List.foldl_append]
    rw [show (pComps folder).foldl osStep (some []) = osNorm folder from rfl, hf]
    rw [hrc, List.foldl_append]
    have hile : commonPfxLen fc (npComps dep) ≤ fc.length := commonPfxLen_le_left _ _
    rw [osStep_pops _ fc (by omega)]
    have htake : fc.take (fc.length - (fc.length - commonPfxLen fc (npComps dep)))
        = (npComps dep).take (commonPfxLen fc (npComps dep)) := by
      have h2 : fc.length - (fc.length - commonPfxLen fc (npComps dep))
          = commonPfxLen fc (npComps dep) := by omega
      rw [h2]
      exact take_commonPfxLen fc (npComps dep)
    rw [htake]
    by_cases hdd : "..".toList ∈ npComps dep
    · obtain ⟨a, reals, hshape, hnr⟩ := npComps_shape dep
      have ha : a ≠ 0 := by
        intro h0
        rw [h0] at hshape
        simp only [List.replicate_zero, List.nil_append] at hshape
        rw [hshape] at hdd
        exact hnr hdd
      obtain ⟨a2, rfl⟩ : ∃ a2, a = a2 + 1 := ⟨a - 1, by omega⟩
      have hi0 : commonPfxLen fc (npComps dep) = 0 := by
        rw [hshape]
        cases hfc : fc with
        | nil => rfl
        | cons f0 fs =>
          show commonPfxLen (f0 :: fs) ("..".toList :: (List.replicate a2 ("..".toList) ++ reals)) = 0
          unfold commonPfxLen
          rw [if_neg]
          intro he
          apply hddf
          rw [hfc, he]
          simp
      rw [hi0]
      simp only [List.drop_zero, List.take_zero]
      rw [hshape]
      rw [show List.replicate (a2 + 1) ("..".toList) ++ reals
          = "..".toList :: (List.replicate a2 ("..".toList) ++ reals) from by
        rw [List.replicate_succ]; rfl]
      rw [List.foldl_cons, show osStep (some []) ("..".toList) = none from rfl,
        foldl_osStep_none]
      rw [dd_osNorm_none dep hdd]
    · rw [osStep_pushes _ _ (fun hm => hdd (List.mem_of_mem_drop hm)),
        List.take_append_drop]
      rw [np_osNorm dep hdd]

/-! ## Relationship-target rewriting (claim C5) -/

theorem splitSlash_chars : ∀ (s : Str) (g : Str), g ∈ splitSlash s → ∀ ch ∈ g, ch ∈ s := by
  intro s
  induction s with
  | nil =>
    intro g hg ch hch
    simp [splitSlash] at hg
    rw [hg] at hch
    simp at hch
  | cons c rest ih =>
    intro g hg ch hch
    unfold splitSlash at hg
    by_cases hc : c = '/'
    · rw [if_pos hc] at hg
      rcases List.mem_cons.mp hg with rfl | hg2
      · simp at hch
      · exact List.mem_cons_of_mem c (ih g hg2 ch hch)
    · rw [if_neg hc] at hg
      cases hsp : splitSlash rest with
      | nil => exact absurd hsp (splitSlash_ne_nil rest)
      | cons g0 gs =>
        rw [hsp] at hg
        rcases List.mem_cons.mp hg with rfl | hg2
        · rcases List.mem_cons.mp hch with rfl | hch2
          · simp
          · exact List.mem_cons_of_mem c (ih g0 (by rw [hsp]; simp) ch hch2)
        · exact List.mem_cons_of_mem c (ih g (by rw [hsp]; simp [hg2]) ch hch)

theorem pComps_chars (s : Str) (c : Str) (hc : c ∈ pComps s) : ∀ ch ∈ c, ch ∈ s := by
  intro ch hch
  unfold pComps at hc
  exact splitSlash_chars s c (List.mem_filter.mp hc).1 ch hch

theorem joinPath_chars : ∀ (l : List Str) (ch : Char),
    ch ∈ joinPath l → ch = '/' ∨ ∃ c ∈ l, ch ∈ c := by
  intro l
  induction l with
  | nil => intro ch hch; simp [joinPath] at hch
  | cons c cs ih =>
    intro ch hch
    cases cs with
    | nil =>
      refine Or.inr ⟨c, by simp, ?_⟩
      simpa [joinPath] using hch
    | cons c2 cs2 =>
      rw [show joinPath (c :: c2 :: cs2) = c ++ '/' :: joinPath (c2 :: cs2) from rfl] at hch
      rcases List.mem_append.mp hch with h2 | h2
      · exact Or.inr ⟨c, by simp, h2⟩
      · rcases List.mem_cons.mp h2 with rfl | h3
        · exact Or.inl rfl
        · rcases ih ch h3 with h4 | ⟨d, hd, hchd⟩
          · exact Or.inl h4
          · exact Or.inr ⟨d, by simp [hd], hchd⟩

theorem relpath_no_bs (dep folder : Str) (hnb : ∀ ch ∈ dep, ch ≠ '\\') :
    ∀ ch ∈ relpathStr dep folder, ch ≠ '\\' := by
  intro ch hch
  unfold relpathStr at hch
  by_cases hnil : relpathComps dep folder = []
  · rw [if_pos hnil] at hch
    rcases List.mem_cons.mp hch with rfl | h3
    · decide
    · simp at h3
  · rw [if_neg hnil] at hch
    rcases joinPath_chars _ ch hch with rfl | ⟨c, hc, hchc⟩
    · decide
    · unfold relpathComps at hc
      rcases List.mem_append.mp hc with h2 | h2
      · rw [List.eq_of_mem_replicate h2] at hchc
        rcases List.mem_cons.mp hchc with rfl | h3
        · decide
        · rcases List.mem_cons.mp h3 with rfl | h4
          · decide
          · simp at h4
      · exact hnb ch
          (pComps_chars dep c (npComps_sub_pComps dep c (List.mem_of_mem_drop h2)) ch hchc)

theorem replBS_no_bs (s : Str) (h : ∀ ch ∈ s, ch ≠ '\\') : replBS s = s := by
  unfold replBS
  induction s with
  | nil => rfl
  | cons c rest ih =>
    rw [List.map_cons, if_neg (h c (by simp)), ih (fun d hd => h d (by simp [hd]))]

theorem processRels_out_mono (copyF : PState → Str → Option (Str × PState))
    (part_rel folder : Str) :
    ∀ (rl : List Rel) (st : PState) (out : List Rel) (ch : Bool)
      (st' : PState) (out' : List Rel) (ch' : Bool),
      processRels copyF part_rel folder st rl out ch = some (st', out', ch') →
      ∀ e ∈ out, e ∈ out' := by
  intro rl
  induction rl with
  | nil =>
    intro st out ch st' out' ch' h e he
    unfold processRels at h
    injection h with h1
    have : out' = out := congrArg (fun x => x.2.1) h1 |>.symm
    rw [this]
    exact he
  | cons rel rest ih =>
    intro st out ch st' out' ch' h e he
    unfold processRels at h
    by_cases hdd : ddSlash.isPrefixOf rel.target
    · rw [if_pos hdd] at h
      cases hcf : copyF st (targOf part_rel rel.target) with
      | none => simp only [hcf] at h; exact Option.noConfusion h
      | some pr =>
        obtain ⟨dep, st2⟩ := pr
        simp only [hcf] at h
        exact ih st2 _ _ _ _ _ h e (by simp [he])
    · rw [if_neg hdd] at h
      exact ih st _ _ _ _ _ h e (by simp [he])

theorem processRels_keeps_nondd (copyF : PState → Str → Option (Str × PState))
    (part_rel folder : Str) :
    ∀ (rl : List Rel) (st : PState) (out : List Rel) (ch : Bool)
      (st' : PState) (out' : List Rel) (ch' : Bool),
      processRels copyF part_rel folder st rl out ch = some (st', out', ch') →
      ∀ rel ∈ rl, ddSlash.isPrefixOf rel.target = false → rel ∈ out' := by
  intro rl
  induction rl with
  | nil =>
    intro st out ch st' out' ch' h rel hrel
    simp at hrel
  | cons rel0 rest ih =>
    intro st out ch st' out' ch' h rel hrel hne
    unfold processRels at h
    rcases List.mem_cons.mp hrel with rfl | hrel2
    · rw [if_neg (by rw [hne]; simp)] at h
      exact processRels_out_mono copyF part_rel folder rest _ _ _ _ _ _ h rel (by simp)
    · by_cases hdd : ddSlash.isPrefixOf rel0.target
      · rw [if_pos hdd] at h
        cases hcf : copyF st (targOf part_rel rel0.target) with
        | none => simp only [hcf] at h; exact Option.noConfusion h
        | some pr =>
          obtain ⟨dep, st2⟩ := pr
          simp only [hcf] at h
          exact ih st2 _ _ _ _ _ h rel hrel2 hne
      · rw [if_neg hdd] at h
        exact ih st _ _ _ _ _ h rel hrel2 hne

/-- C5 amended: when the relative path from the new owner's folder to the
new dependency path itself starts with `../`, the copier's rewritten
target resolves from the new owner's folder to exactly the dependency's
resolved destination (the original claim's guarantee); and every
relationship whose target does not start with `../` is carried into the
processed relationship list unchanged. (The counterexample shows the
guarantee fails when the relative path does not start with `../`, because
the copier force-prepends `../`.) -/
theorem c5_rel_rewrite_amended :
    (∀ folder dep : Str, ∀ fc : List Str, osNorm folder = some fc →
        (∀ ch ∈ dep, ch ≠ '\\') →
        ddSlash.isPrefixOf (relpathStr dep folder) = true →
        resolveFrom folder (rewriteTarget folder dep) = osNorm dep)
    ∧ (∀ (copyF : PState → Str → Option (Str × PState)) (part_rel folder : Str)
        (st : PState) (rl : List Rel) (out : List Rel) (ch : Bool)
        (st' : PState) (out' : List Rel) (ch' : Bool),
        processRels copyF part_rel folder st rl out ch = some (st', out', ch') →
        ∀ rel ∈ rl, ddSlash.isPrefixOf rel.target = false → rel ∈ out') := by
  constructor
  · intro folder dep fc hf hnb hdd
    unfold rewriteTarget
    rw [replBS_no_bs _ (relpath_no_bs dep folder hnb), if_pos hdd]
    exact relpath_resolve dep folder fc hf
  · exact fun copyF part_rel folder st rl out ch st' out' ch' h =>
      processRels_keeps_nondd copyF part_rel folder rl st out ch st' out' ch' h

/-- Witness for C5 amended at a concrete folder and dependency. -/
theorem c5_witness :
    resolveFrom ("slides".toList) (rewriteTarget ("slides".toList) ("media/img.png".toList))
      = osNorm ("media/img.png".toList) :=
  c5_rel_rewrite_amended.1 ("slides".toList) ("media/img.png".toList)
    ["slides".toList] (by decide) (by decide) (by decide)

/-- C5 counterexample: the slide `slides/slideA.xml` references
`../slides/dep.xml`; the dependency is copied under the (unnormalized)
destination path `slides/../slides/dep.xml`, i.e. `slides/dep.xml` on
disk, but the relationship target is rewritten to `../dep.xml`, which
resolves from the new owner's folder `slides` to `dep.xml` at the package
root — not the copied dependency's path. -/
theorem c5_counterexample :
    (copy_part_with_dependencies c5src ⟨[], []⟩ 4 emptyPState
        ("slides/slideA.xml".toList)).isSome = true
    ∧ lookupNm c5res.2.nameMap ("slides/../slides/dep.xml".toList)
        = some ("slides/../slides/dep.xml".toList)
    ∧ findTree c5res.2.dst ["slides".toList, "_rels".toList, "slideA.xml.rels".toList]
        = some (Entry.rels [⟨"rId1".toList, "dep".toList, "../dep.xml".toList⟩])
    ∧ resolveFrom ("slides".toList) ("../dep.xml".toList) = some ["dep.xml".toList]
    ∧ osNorm ("slides/../slides/dep.xml".toList)
        = some ["slides".toList, "dep.xml".toList]
    ∧ (some ["dep.xml".toList] : Option (List Str))
        ≠ some ["slides".toList, "dep.xml".toList] := by
  refine ⟨rfl, rfl, rfl, by decide, by decide, by decide⟩

/-! ## Nontermination of the copier on a cyclic self-reference (claim C8) -/

theorem joinPath_append : ∀ (l₁ l₂ : List Str), l₁ ≠ [] → l₂ ≠ [] →
    joinPath (l₁ ++ l₂) = joinPath l₁ ++ '/' :: joinPath l₂ := by
  intro l₁
  induction l₁ with
  | nil => intro l₂ h _; exact absurd rfl h
  | cons a l₁ ih =>
    intro l₂ _ h₂
    cases l₁ with
    | nil =>
      cases l₂ with
      | nil => exact absurd rfl h₂
      | cons b l₂ => rfl
    | cons a2 l₁2 =>
      show a ++ '/' :: joinPath ((a2 :: l₁2) ++ l₂) = (a ++ '/' :: joinPath (a2 :: l₁2)) ++ '/' :: joinPath l₂
      rw [ih l₂ (by simp) h₂]
      simp

theorem cycTail_length (k : Nat) : (cycTail k).length = 2 * k + 1 := by
  induction k with
  | zero => rfl
  | succ k ih => simp [cycTail, ih]; omega

theorem cycTail_mem (k : Nat) : ∀ x ∈ cycTail k,
    x = "..".toList ∨ x = "slides".toList ∨ x = "slide1.xml".toList := by
  induction k with
  | zero =>
    intro x hx
    rcases List.mem_cons.mp hx with rfl | h2
    · exact Or.inr (Or.inr rfl)
    · simp at h2
  | succ k ih =>
    intro x hx
    rcases List.mem_cons.mp hx with rfl | h2
    · exact Or.inl rfl
    · rcases List.mem_cons.mp h2 with rfl | h3
      · exact Or.inr (Or.inl rfl)
      · exact ih x h3

theorem cycComps_valid (k : Nat) : ∀ c ∈ cycComps k, validComp c := by
  intro c hc
  rcases List.mem_cons.mp hc with rfl | h2
  · exact ⟨by decide, by decide, by decide⟩
  · rcases cycTail_mem k c h2 with rfl | rfl | rfl
    · exact ⟨by decide, by decide, by decide⟩
    · exact ⟨by decide, by decide, by decide⟩
    · exact ⟨by decide, by decide, by decide⟩

theorem pComps_cycPath (k : Nat) : pComps (cycPath k) = cycComps k :=
  pComps_joinPath (cycComps k) (cycComps_valid k)

theorem cycPath_inj {j k : Nat} (h : cycPath j = cycPath k) : j = k := by
  have h2 := congrArg pComps h
  rw [pComps_cycPath, pComps_cycPath] at h2
  have h3 := congrArg List.length h2
  simp only [cycComps, List.length_cons, cycTail_length] at h3
  omega

theorem cycTail_fold (k : Nat) :
    (cycTail k).foldl osStep (some ["slides".toList])
      = some ["slides".toList, "slide1.xml".toList] := by
  induction k with
  | zero => rfl
  | succ k ih =>
    show (("..".toList :: "slides".toList :: cycTail k).foldl osStep
      (some ["slides".toList])) = _
    rw [List.foldl_cons, List.foldl_cons,
      show osStep (some ["slides".toList]) ("..".toList) = some [] from rfl,
      show osStep (some ([] : List Str)) ("slides".toList) = some ["slides".toList] from rfl]
    exact ih

theorem osNorm_cycPath (k : Nat) :
    osNorm (cycPath k) = some ["slides".toList, "slide1.xml".toList] := by
  unfold osNorm
  rw [pComps_cycPath]
  show (("slides".toList :: cycTail k).foldl osStep (some [])) = _
  rw [List.foldl_cons,
    show osStep (some ([] : List Str)) ("slides".toList) = some ["slides".toList] from rfl]
  exact cycTail_fold k

theorem lookupFile_cycPath (k : Nat) :
    lookupFile c8src (cycPath k) = some (Entry.bin 0) := by
  unfold lookupFile
  rw [osNorm_cycPath]
  rfl

theorem cycTail_cons (k : Nat) : ∃ c cs, cycTail k = c :: cs := by
  cases k with
  | zero => exact ⟨_, _, rfl⟩
  | succ k => exact ⟨_, _, rfl⟩

theorem folderOf_cycPath (k : Nat) :
    folderOf (cycPath k) = joinPath ("slides".toList :: (cycTail k).dropLast) := by
  unfold folderOf
  rw [pComps_cycPath]
  obtain ⟨c, cs, hcc⟩ := cycTail_cons k
  rw [show (cycComps k).dropLast = "slides".toList :: (cycTail k).dropLast from by
    rw [cycComps, hcc]; simp]
  rw [if_neg (by simp)]

theorem cycTail_getLast (k : Nat) : (cycTail k).getLast? = some ("slide1.xml".toList) := by
  induction k with
  | zero => rfl
  | succ k ih =>
    obtain ⟨c, cs, hcc⟩ := cycTail_cons k
    show ("..".toList :: "slides".toList :: cycTail k).getLast? = _
    rw [hcc]
    rw [List.getLast?_cons_cons, List.getLast?_cons_cons, ← hcc]
    exact ih

theorem nameOf_cycPath (k : Nat) : nameOf (cycPath k) = "slide1.xml".toList := by
  unfold nameOf
  rw [pComps_cycPath]
  obtain ⟨c, cs, hcc⟩ := cycTail_cons k
  show (("slides".toList :: cycTail k).getLast?).getD [] = _
  rw [hcc, List.getLast?_cons_cons, ← hcc, cycTail_getLast]
  rfl

theorem dropLast_fold (k : Nat) :
    ((cycTail k).dropLast).foldl osStep (some ["slides".toList])
      = some ["slides".toList] := by
  induction k with
  | zero => rfl
  | succ k ih =>
    obtain ⟨c, cs, hcc⟩ := cycTail_cons k
    show (("..".toList :: "slides".toList :: cycTail k).dropLast).foldl osStep
      (some ["slides".toList]) = _
    rw [hcc, List.dropLast_cons₂, List.dropLast_cons₂, ← hcc]
    rw [List.foldl_cons, List.foldl_cons,
      show osStep (some ["slides".toList]) ("..".toList) = some [] from rfl,
      show osStep (some ([] : List Str)) ("slides".toList) = some ["slides".toList] from rfl]
    exact ih

theorem relsRel_cyc (k : Nat) :
    lookupFile c8src (relsRelOf (folderOf (cycPath k)) (nameOf (cycPath k)))
      = some (Entry.rels [c8rel]) := by
  rw [nameOf_cycPath, folderOf_cycPath]
  have hstring : relsRelOf (joinPath ("slides".toList :: (cycTail k).dropLast))
      ("slide1.xml".toList)
      = joinPath (("slides".toList :: (cycTail k).dropLast)
          ++ ["_rels".toList, "slide1.xml.rels".toList]) := by
    rw [joinPath_append _ _ (by simp) (by simp)]
    unfold relsRelOf
    rw [show splitextFname ("slide1.xml".toList) = ("slide1".toList, ".xml".toList) from rfl]
    rw [show joinPath ["_rels".toList, "slide1.xml.rels".toList]
        = "_rels".toList ++ '/' :: "slide1.xml.rels".toList from rfl]
    simp
  rw [hstring]
  unfold lookupFile osNorm
  rw [pComps_joinPath]
  · unfold osNormComps
    rw [List.foldl_append]
    rw [show ("slides".toList :: (cycTail k).dropLast).foldl osStep (some [])
        = ((cycTail k).dropLast).foldl osStep (some ["slides".toList]) from by
      rw [List.foldl_cons]; rfl]
    rw [dropLast_fold]
    rfl
  · intro c hc
    rcases List.mem_append.mp hc with h2 | h2
    · rcases List.mem_cons.mp h2 with rfl | h3
      · exact ⟨by decide, by decide, by decide⟩
      · have := (List.dropLast_prefix (cycTail k)).subset h3
        rcases cycTail_mem k c this with rfl | rfl | rfl
        · exact ⟨by decide, by decide, by decide⟩
        · exact ⟨by decide, by decide, by decide⟩
        · exact ⟨by decide, by decide, by decide⟩
    · rcases List.mem_cons.mp h2 with rfl | h3
      · exact ⟨by decide, by decide, by decide⟩
      · rcases List.mem_cons.mp h3 with rfl | h4
        · exact ⟨by decide, by decide, by decide⟩
        · simp at h4

theorem cycDropLast_append (k : Nat) :
    (cycTail k).dropLast ++ ["..".toList, "slides".toList, "slide1.xml".toList]
      = cycTail (k + 1) := by
  induction k with
  | zero => rfl
  | succ k ih =>
    obtain ⟨c, cs, hcc⟩ := cycTail_cons k
    show (("..".toList :: "slides".toList :: cycTail k).dropLast) ++ _ = _
    rw [hcc, List.dropLast_cons₂, List.dropLast_cons₂, ← hcc]
    show "..".toList :: "slides".toList
        :: ((cycTail k).dropLast ++ ["..".toList, "slides".toList, "slide1.xml".toList])
      = cycTail (k + 1 + 1)
    rw [ih]
    rfl

theorem cycPath_head (k : Nat) : ∃ rest, cycPath k = 's' :: rest := by
  unfold cycPath
  obtain ⟨c, cs, hcc⟩ := cycTail_cons k
  show ∃ rest, joinPath ("slides".toList :: cycTail k) = 's' :: rest
  rw [hcc]
  exact ⟨_, rfl⟩

theorem ddSlash_not_pfx_s (rest : Str) : ddSlash.isPrefixOf ('s' :: rest) = false := rfl

theorem stripParentDots_no_dd (s : Str) (h : ddSlash.isPrefixOf s = false) :
    stripParentDots s = s := by
  unfold stripParentDots
  cases hl : s.length with
  | zero => rfl
  | succ n =>
    show spdGo (n + 1) s = s
    unfold spdGo
    rw [h]
    simp

theorem cycPath_no_bs (k : Nat) : ∀ ch ∈ cycPath k, ch ≠ '\\' := by
  intro ch hch
  rcases joinPath_chars _ ch hch with rfl | ⟨c, hc, hchc⟩
  · decide
  · rcases List.mem_cons.mp hc with rfl | h2
    · exact (by decide : ∀ ch ∈ "slides".toList, ch ≠ '\\') ch hchc
    · rcases cycTail_mem k c h2 with rfl | rfl | rfl
      · exact (by decide : ∀ ch ∈ "..".toList, ch ≠ '\\') ch hchc
      · exact (by decide : ∀ ch ∈ "slides".toList, ch ≠ '\\') ch hchc
      · exact (by decide : ∀ ch ∈ "slide1.xml".toList, ch ≠ '\\') ch hchc

theorem targOf_cyc (k : Nat) : targOf (cycPath k) (c8rel.target) = cycPath (k + 1) := by
  unfold targOf joinUnder
  rw [pComps_cycPath]
  rw [show pComps (c8rel.target)
      = ["..".toList, "slides".toList, "slide1.xml".toList] from rfl]
  obtain ⟨c, cs, hcc⟩ := cycTail_cons k
  rw [show (cycComps k).dropLast = "slides".toList :: (cycTail k).dropLast from by
    rw [cycComps, hcc]; simp]
  rw [show ("slides".toList :: (cycTail k).dropLast)
        ++ ["..".toList, "slides".toList, "slide1.xml".toList]
      = cycComps (k + 1) from by
    rw [cycComps, List.cons_append, cycDropLast_append]]
  show replBS (stripParentDots (cycPath (k + 1))) = cycPath (k + 1)
  obtain ⟨rest, hrest⟩ := cycPath_head (k + 1)
  have hnb := cycPath_no_bs (k + 1)
  rw [hrest] at hnb ⊢
  rw [stripParentDots_no_dd _ (ddSlash_not_pfx_s rest), replBS_no_bs _ hnb]

theorem lookupNm_append_none (m : List (Str × Str)) (p : Str) (kv : Str × Str)
    (h : lookupNm m p = none) (hk : kv.1 ≠ p) : lookupNm (m ++ [kv]) p = none := by
  obtain ⟨k, v⟩ := kv
  induction m with
  | nil =>
    show lookupNm [(k, v)] p = none
    unfold lookupNm
    rw [if_neg hk]
    rfl
  | cons kv0 m ih =>
    obtain ⟨k0, v0⟩ := kv0
    by_cases hk0 : k0 = p
    · subst hk0
      simp only [lookupNm, if_pos rfl] at h
      exact Option.noConfusion h
    · simp only [List.cons_append, lookupNm, if_neg hk0] at h ⊢
      exact ih h

theorem c8_aux : ∀ (fuel k : Nat) (st : PState),
    (∀ j, k ≤ j → lookupNm st.nameMap (cycPath j) = none) →
    copy_part_with_dependencies c8src ⟨[], []⟩ fuel st (cycPath k) = none := by
  intro fuel
  induction fuel with
  | zero => intro k st _; rfl
  | succ fuel ih =>
    intro k st hinv
    rw [copy_succ]
    unfold copyStep
    simp only [hinv k le_rfl, lookupFile_cycPath k, relsRel_cyc k]
    unfold processRels
    rw [if_pos (by decide : ddSlash.isPrefixOf c8rel.target = true)]
    rw [targOf_cyc k]
    rw [ih (k + 1) (withRels ⟨[], []⟩ st (cycPath k) (Entry.bin 0) [c8rel]) ?hinv2]
    case hinv2 =>
      intro j hj
      rw [withRels_nameMap]
      refine lookupNm_append_none _ _ _ (hinv j (by omega)) ?_
      intro he
      have := cycPath_inj he
      omega

/-- C8: on the failing input — a slide `slides/slide1.xml` whose `.rels`
sibling contains the internal target `../slides/slide1.xml` — the copier
diverges for every recursion budget: each recursive step requests the
strictly longer unnormalized path `slides/../slides/.../slide1.xml`,
which is never in the `name_map`, so the memoization the claim appeals to
never fires and the fuel always runs out (a `RecursionError` in the
original). -/
theorem c8_nontermination (fuel : Nat) :
    copy_part_with_dependencies c8src ⟨[], []⟩ fuel emptyPState
      ("slides/slide1.xml".toList) = none := by
  rw [show ("slides/slide1.xml".toList : Str) = cycPath 0 from rfl]
  exact c8_aux fuel 0 emptyPState (fun j _ => rfl)

/-! ## The merge loop -/

theorem foldlM_opt_cons {α β : Type} (f : β → α → Option β) (b : β) (a : α) (l : List α) :
    (a :: l).foldlM f b = (f b a).bind (fun x => l.foldlM f x) := rfl

theorem mergeSlide_unres (fuel idx : Nat) (src : Pkg) (acc : MState × List (Str × Str))
    (e : SldEntry) (hr : resolvableB src e = false) :
    mergeSlide fuel idx src acc e = some acc := by
  unfold resolvableB at hr
  unfold mergeSlide
  cases hcase : e.rid.bind (idToTarget src.rels) with
  | none => simp only [hcase]
  | some t =>
    simp only [hcase] at hr ⊢
    have ht : t = [] := not_not.mp (of_decide_eq_false hr)
    rw [if_pos ht]

theorem mergeSlide_res (fuel idx : Nat) (src : Pkg) (acc : MState × List (Str × Str))
    (e : SldEntry) (res : MState × List (Str × Str))
    (hr : resolvableB src e = true)
    (hm : mergeSlide fuel idx src acc e = some res) :
    res.1.slides = acc.1.slides ++
        [⟨some (intRepr (acc.1.maxId + 1)), some (next_rel_id acc.1.rels)⟩]
    ∧ res.1.slideLog = acc.1.slideLog ++
        [(idx, e, ⟨some (intRepr (acc.1.maxId + 1)), some (next_rel_id acc.1.rels)⟩)]
    ∧ res.1.maxId = acc.1.maxId + 1 := by
  unfold resolvableB at hr
  unfold mergeSlide at hm
  cases hcase : e.rid.bind (idToTarget src.rels) with
  | none => rw [hcase] at hr; exact absurd hr (by decide)
  | some t =>
    simp only [hcase] at hr hm
    have ht : ¬ (t = []) := of_decide_eq_true hr
    rw [if_neg ht] at hm
    cases hcopy : copy_part_with_dependencies src.tree src.ct fuel
        ⟨acc.2, acc.1.tree, acc.1.ct, acc.1.copyLog⟩ (stripPpt t) with
    | none => rw [hcopy] at hm; exact Option.noConfusion hm
    | some pr =>
      obtain ⟨dst, ps⟩ := pr
      simp only [hcopy] at hm
      injection hm with hm2
      subst hm2
      exact ⟨rfl, rfl, rfl⟩

theorem sldIdVal_mk (k : Int) (r : Option Str) :
    sldIdVal ⟨some (intRepr k), r⟩ = some k :=
  pyInt_intRepr k

theorem foldSlides_spec (fuel idx : Nat) (src : Pkg) :
    ∀ (entries : List SldEntry) (acc out : MState × List (Str × Str)),
      entries.foldlM (mergeSlide fuel idx src) acc = some out →
      ∃ L : List (Nat × SldEntry × SldEntry),
        out.1.slideLog = acc.1.slideLog ++ L
        ∧ L.map (fun l => (l.1, l.2.1))
            = (entries.filter (resolvableB src)).map (fun e => (idx, e))
        ∧ out.1.slides = acc.1.slides ++ L.map (fun l => l.2.2)
        ∧ ((∀ e ∈ acc.1.slides, ∃ v, sldIdVal e = some v ∧ v ≤ acc.1.maxId) →
            acc.1.slides.Pairwise idLt →
            (acc.1.maxId ≤ out.1.maxId
              ∧ (∀ e ∈ out.1.slides, ∃ v, sldIdVal e = some v ∧ v ≤ out.1.maxId)
              ∧ out.1.slides.Pairwise idLt)) := by
  intro entries
  induction entries with
  | nil =>
    intro acc out hm
    have hm2 : some acc = some out := hm
    injection hm2 with hm3
    subst hm3
    exact ⟨[], (List.append_nil _).symm, rfl, (List.append_nil _).symm,
      fun hb hp => ⟨le_refl _, hb, hp⟩⟩
  | cons e rest ih =>
    intro acc out hm
    rw [foldlM_opt_cons] at hm
    cases hstep : mergeSlide fuel idx src acc e with
    | none => rw [hstep] at hm; exact Option.noConfusion hm
    | some acc1 =>
      rw [hstep] at hm
      have hm2 : rest.foldlM (mergeSlide fuel idx src) acc1 = some out := hm
      cases hres : resolvableB src e with
      | false =>
        have h3 : some acc = some acc1 :=
          (mergeSlide_unres fuel idx src acc e hres).symm.trans hstep
        have heq : acc = acc1 := Option.some.inj h3
        subst heq
        obtain ⟨L, h1, h2, h3', h4⟩ := ih acc out hm2
        refine ⟨L, h1, ?_, h3', h4⟩
        simpa [List.filter_cons, hres] using h2
      | true =>
        obtain ⟨hs1, hs2, hs3⟩ := mergeSlide_res fuel idx src acc e acc1 hres hstep
        obtain ⟨L, h1, h2, h3', h4⟩ := ih acc1 out hm2
        refine ⟨(idx, e, ⟨some (intRepr (acc.1.maxId + 1)),
          some (next_rel_id acc.1.rels)⟩) :: L, ?_, ?_, ?_, ?_⟩
        · rw [h1, hs2, List.append_assoc, List.singleton_append]
        · simp only [List.map_cons, List.filter_cons, hres, if_true]
          rw [h2]
        · simp only [List.map_cons]
          rw [h3', hs1, List.append_assoc, List.singleton_append]
        · intro hb hp
          have hb1 : ∀ a ∈ acc1.1.slides, ∃ v, sldIdVal a = some v ∧ v ≤ acc1.1.maxId := by
            intro a ha
            rw [hs1] at ha
            rcases List.mem_append.mp ha with ha' | ha'
            · obtain ⟨v, hv, hle⟩ := hb a ha'
              exact ⟨v, hv, by rw [hs3]; omega⟩
            · rw [List.mem_singleton] at ha'
              subst ha'
              exact ⟨acc.1.maxId + 1, sldIdVal_mk _ _, by rw [hs3]⟩
          have hp1 : acc1.1.slides.Pairwise idLt := by
            rw [hs1, List.pairwise_append]
            refine ⟨hp, ?_, ?_⟩
            · exact List.pairwise_singleton _ _
            · intro a ha b hbm
              rw [List.mem_singleton] at hbm
              subst hbm
              intro va vb hva hvb
              obtain ⟨v, hv, hle⟩ := hb a ha
              have hva2 : va = v := Option.some.inj (hva.symm.trans hv)
              have hvb2 : vb = acc.1.maxId + 1 :=
                Option.some.inj (hvb.symm.trans (sldIdVal_mk _ _))
              omega
          obtain ⟨hle2, hbo, hpo⟩ := h4 hb1 hp1
          refine ⟨?_, hbo, hpo⟩
          rw [hs3] at hle2
          omega

theorem mergeOne_spec (fuel : Nat) (p : Nat × Pkg) (st st' : MState)
    (h : mergeOne fuel st p = some st') :
    ∃ L : List (Nat × SldEntry × SldEntry),
      st'.slideLog = st.slideLog ++ L
      ∧ L.map (fun l => (l.1, l.2.1)) = (resolvables p.2).map (fun e => (p.1, e))
      ∧ st'.slides = st.slides ++ L.map (fun l => l.2.2)
      ∧ ((∀ e ∈ st.slides, ∃ v, sldIdVal e = some v ∧ v ≤ st.maxId) →
          st.slides.Pairwise idLt →
          (st.maxId ≤ st'.maxId
            ∧ (∀ e ∈ st'.slides, ∃ v, sldIdVal e = some v ∧ v ≤ st'.maxId)
            ∧ st'.slides.Pairwise idLt)) := by
  unfold mergeOne at h
  cases hs : p.2.slides with
  | none =>
    simp only [hs] at h
    injection h with h2
    subst h2
    refine ⟨[], (List.append_nil _).symm, ?_, (List.append_nil _).symm,
      fun hb hp => ⟨le_refl _, hb, hp⟩⟩
    unfold resolvables
    rw [hs]
    rfl
  | some entries =>
    simp only [hs] at h
    cases hf : entries.foldlM (mergeSlide fuel p.1 p.2) (st, []) with
    | none => rw [hf] at h; exact Option.noConfusion h
    | some out =>
      rw [hf] at h
      have h2 : out.1 = st' := Option.some.inj h
      obtain ⟨L, h1, hmp, hsl, hinv⟩ := foldSlides_spec fuel p.1 p.2 entries (st, []) out hf
      subst h2
      refine ⟨L, h1, ?_, hsl, hinv⟩
      rw [hmp]
      unfold resolvables
      rw [hs]
      rfl

theorem mergeAll_spec (fuel : Nat) :
    ∀ (ps : List (Nat × Pkg)) (st out : MState),
      ps.foldlM (mergeOne fuel) st = some out →
      ∃ L : List (Nat × SldEntry × SldEntry),
        out.slideLog = st.slideLog ++ L
        ∧ L.map (fun l => (l.1, l.2.1))
            = (ps.map (fun p => (resolvables p.2).map (fun e => (p.1, e)))).flatten
        ∧ out.slides = st.slides ++ L.map (fun l => l.2.2)
        ∧ ((∀ e ∈ st.slides, ∃ v, sldIdVal e = some v ∧ v ≤ st.maxId) →
            st.slides.Pairwise idLt →
            ((∀ e ∈ out.slides, ∃ v, sldIdVal e = some v ∧ v ≤ out.maxId)
              ∧ out.slides.Pairwise idLt)) := by
  intro ps
  induction ps with
  | nil =>
    intro st out hm
    have hm2 : some st = some out := hm
    injection hm2 with hm3
    subst hm3
    exact ⟨[], (List.append_nil _).symm, rfl, (List.append_nil _).symm,
      fun hb hp => ⟨hb, hp⟩⟩
  | cons p rest ih =>
    intro st out hm
    rw [foldlM_opt_cons] at hm
    cases hstep : mergeOne fuel st p with
    | none => rw [hstep] at hm; exact Option.noConfusion hm
    | some st1 =>
      rw [hstep] at hm
      have hm2 : rest.foldlM (mergeOne fuel) st1 = some out := hm
      obtain ⟨L1, a1, a2, a3, a4⟩ := mergeOne_spec fuel p st st1 hstep
      obtain ⟨L2, b1, b2, b3, b4⟩ := ih st1 out hm2
      refine ⟨L1 ++ L2, ?_, ?_, ?_, ?_⟩
      · rw [b1, a1, List.append_assoc]
      · rw [List.map_append, a2, b2, List.map_cons, List.flatten_cons]
      · rw [b3, a3, List.map_append, List.append_assoc]
      · intro hb hp
        obtain ⟨hle1, hb1, hp1⟩ := a4 hb hp
        exact b4 hb1 hp1

theorem current_max_fold_ge : ∀ (entries : List SldEntry) (m : Int),
    m ≤ entries.foldl
      (fun mx x => match sldIdVal x with | some w => max mx w | none => mx) m := by
  intro entries
  induction entries with
  | nil => intro m; exact le_refl m
  | cons e rest ih =>
    intro m
    rw [List.foldl_cons]
    cases hv : sldIdVal e with
    | none => simp only [hv]; exact ih m
    | some v =>
      simp only [hv]
      exact le_trans (le_max_left m v) (ih (max m v))

theorem current_max_fold_mem : ∀ (entries : List SldEntry) (m : Int) (e : SldEntry),
    e ∈ entries → ∀ v, sldIdVal e = some v →
    v ≤ entries.foldl
      (fun mx x => match sldIdVal x with | some w => max mx w | none => mx) m := by
  intro entries
  induction entries with
  | nil => intro m e he; exact absurd he (List.not_mem_nil e)
  | cons a rest ih =>
    intro m e he v hv
    rw [List.foldl_cons]
    rcases List.mem_cons.mp he with he' | he'
    · subst he'
      simp only [hv]
      exact le_trans (le_max_right m v) (current_max_fold_ge rest (max m v))
    · exact ih _ e he' v hv

theorem current_max_sld_id_ge (entries : List SldEntry) (e : SldEntry) (he : e ∈ entries)
    (v : Int) (hv : sldIdVal e = some v) : v ≤ current_max_sld_id entries :=
  current_max_fold_mem entries 256 e he v hv

theorem merge_spec (fuel : Nat) (base : Pkg) (extras : List Pkg) (out : MState)
    (h : merge_presentations fuel base extras = some out) :
    out.slideLog.map (fun l => (l.1, l.2.1))
      = (extras.enum.map (fun p => (resolvables p.2).map (fun e => (p.1, e)))).flatten
    ∧ out.slides = base.slides.getD [] ++ out.slideLog.map (fun l => l.2.2)
    ∧ ((∀ e ∈ base.slides.getD [], ∃ v, sldIdVal e = some v) →
        (base.slides.getD []).Pairwise idLt →
        ((∀ e ∈ out.slides, ∃ v, sldIdVal e = some v) ∧ out.slides.Pairwise idLt)) := by
  obtain ⟨L, h1, h2, h3, h4⟩ := mergeAll_spec fuel extras.enum
    ⟨base.slides.getD [], base.rels, base.tree, base.ct,
      current_max_sld_id (base.slides.getD []), [], []⟩ out h
  have h1' : out.slideLog = ([] : List (Nat × SldEntry × SldEntry)) ++ L := h1
  rw [List.nil_append] at h1'
  subst h1'
  have h3' : out.slides = base.slides.getD [] ++ out.slideLog.map (fun l => l.2.2) := h3
  refine ⟨h2, h3', ?_⟩
  intro hparse hmono
  have hb : ∀ e ∈ base.slides.getD [],
      ∃ v, sldIdVal e = some v ∧ v ≤ current_max_sld_id (base.slides.getD []) := by
    intro e he
    obtain ⟨v, hv⟩ := hparse e he
    exact ⟨v, hv, current_max_sld_id_ge _ e he v hv⟩
  obtain ⟨hbo, hpo⟩ := h4 hb hmono
  refine ⟨fun e he => ?_, hpo⟩
  obtain ⟨v, hv, _⟩ := hbo e he
  exact ⟨v, hv⟩

/-- C2: amended ordering guarantee. The literal claim is false (an entry
of an extra input whose relationship id does not resolve is dropped, see
the counterexample); what holds is: the merged slide list is the base
package's list followed by exactly the entries created for the processed
slides, and the processing log visits the extra inputs in order and,
within each input, exactly its resolvable entries in slide-list order. -/
theorem c2_slide_order_amended (fuel : Nat) (base : Pkg) (extras : List Pkg) (out : MState)
    (h : merge_presentations fuel base extras = some out) :
    out.slides = base.slides.getD [] ++ out.slideLog.map (fun l => l.2.2)
    ∧ out.slideLog.map (fun l => (l.1, l.2.1))
      = (extras.enum.map (fun p => (resolvables p.2).map (fun e => (p.1, e)))).flatten :=
  ⟨(merge_spec fuel base extras out h).2.1, (merge_spec fuel base extras out h).1⟩

/-- C2 witness: the amended ordering statement instantiated on the
concrete two-package demo run. -/
theorem c2_witness :
    merge_presentations 8 c2base [c2extra] = some c2out
    ∧ (c2out.slides = c2base.slides.getD [] ++ c2out.slideLog.map (fun l => l.2.2)
      ∧ c2out.slideLog.map (fun l => (l.1, l.2.1))
        = ([c2extra].enum.map (fun p => (resolvables p.2).map (fun e => (p.1, e)))).flatten) :=
  ⟨by decide, c2_slide_order_amended 8 c2base [c2extra] c2out (by decide)⟩

/-- C2: counterexample to the literal ordering claim. The extra input
holds two slide entries, but its first entry names a relationship id the
input does not define, so the merged output has 2 slides, not the 3 the
claim's ordering (all of the base's, then all of the extra's) would
require. -/
theorem c2_counterexample :
    merge_presentations 8 c2base [c2extra] = some c2out
    ∧ c2out.slides.length = 2
    ∧ (c2base.slides.getD []).length + (c2extra.slides.getD []).length = 3 := by
  decide

/-- C3: amended slide count. The literal claim (output length = sum of
all input slide-list lengths) is false, see the counterexample; what
holds is: output length = base length + the number of resolvable entries
of each extra input. -/
theorem c3_slide_count_amended (fuel : Nat) (base : Pkg) (extras : List Pkg) (out : MState)
    (h : merge_presentations fuel base extras = some out) :
    out.slides.length = (base.slides.getD []).length
      + (extras.map (fun src => (resolvables src).length)).sum := by
  obtain ⟨hmap, hslides, _⟩ := merge_spec fuel base extras out h
  have hlog : out.slideLog.length = (extras.map (fun src => (resolvables src).length)).sum := by
    have hlen := congrArg List.length hmap
    rw [List.length_map] at hlen
    rw [hlen, List.length_flatten, List.map_map]
    have hcomp : (List.length ∘ fun p : Nat × Pkg => (resolvables p.2).map (fun e => (p.1, e)))
        = (fun src => (resolvables src).length) ∘ Prod.snd := by
      funext q
      simp [List.length_map]
    rw [hcomp, ← List.map_map, List.enum_map_snd]
  rw [hslides, List.length_append, List.length_map, hlog]

/-- C3 witness: the amended count statement instantiated on the concrete
demo run with one dangling entry. -/
theorem c3_witness :
    merge_presentations 4 c3base [c3extra] = some c3out
    ∧ c3out.slides.length = (c3base.slides.getD []).length
      + ([c3extra].map (fun src => (resolvables src).length)).sum :=
  ⟨by decide, c3_slide_count_amended 4 c3base [c3extra] c3out (by decide)⟩

/-- C3: counterexample to the literal count claim. The extra input's only
slide entry has a dangling relationship id, so the output keeps 1 slide
while the sum of the input slide-list lengths is 2. -/
theorem c3_counterexample :
    merge_presentations 4 c3base [c3extra] = some c3out
    ∧ c3out.slides.length = 1
    ∧ (c3base.slides.getD []).length + (c3extra.slides.getD []).length = 2 := by
  decide

/-- C7: amended id invariant. The literal claim is false for hand-edited
base packages whose ids are already out of order (see the
counterexample), because the base entries are kept verbatim; what holds
is: if every base entry's id parses and the base ids strictly increase,
then every merged entry's id parses and the merged ids strictly increase
(appended entries get `current max + 1`, and the running maximum bounds
every id already in the deck). -/
theorem c7_slide_ids_amended (fuel : Nat) (base : Pkg) (extras : List Pkg) (out : MState)
    (h : merge_presentations fuel base extras = some out)
    (hparse : ∀ e ∈ base.slides.getD [], ∃ v, sldIdVal e = some v)
    (hmono : (base.slides.getD []).Pairwise idLt) :
    (∀ e ∈ out.slides, ∃ v, sldIdVal e = some v) ∧ out.slides.Pairwise idLt :=
  (merge_spec fuel base extras out h).2.2 hparse hmono

/-- C7 witness: the amended id invariant instantiated on a concrete run
whose base ids are 256 and 300; the merged deck's ids are 256, 300, 301. -/
theorem c7_witness :
    (∀ e ∈ c7wbase.slides.getD [], ∃ v, sldIdVal e = some v)
    ∧ (c7wbase.slides.getD []).Pairwise idLt
    ∧ ((∀ e ∈ c7wout.slides, ∃ v, sldIdVal e = some v) ∧ c7wout.slides.Pairwise idLt) := by
  have hparse : ∀ e ∈ c7wbase.slides.getD [], ∃ v, sldIdVal e = some v := by
    intro e he
    have he' : e ∈ [(⟨some ("256".toList), some ("rId1".toList)⟩ : SldEntry),
        ⟨some ("300".toList), some ("rId3".toList)⟩] := he
    rcases List.mem_cons.mp he' with h1 | h1
    · subst h1; exact ⟨256, rfl⟩
    rcases List.mem_cons.mp h1 with h2 | h2
    · subst h2; exact ⟨300, rfl⟩
    · exact absurd h2 (List.not_mem_nil e)
  have hmono : (c7wbase.slides.getD []).Pairwise idLt := by
    have h0 : ∀ b ∈ [(⟨some ("300".toList), some ("rId3".toList)⟩ : SldEntry)],
        idLt ⟨some ("256".toList), some ("rId1".toList)⟩ b := by
      intro b hbm
      rcases List.mem_cons.mp hbm with h1 | h1
      · subst h1
        intro va vb hva hvb
        have h2 := Option.some.inj (show (some (256 : Int)) = some va from hva)
        have h3 := Option.some.inj (show (some (300 : Int)) = some vb from hvb)
        omega
      · exact absurd h1 (List.not_mem_nil b)
    exact List.Pairwise.cons h0 (List.Pairwise.cons
      (fun b hbm => absurd hbm (List.not_mem_nil b)) List.Pairwise.nil)
  exact ⟨hparse, hmono,
    c7_slide_ids_amended 8 c7wbase [c7extra] c7wout (by decide) hparse hmono⟩

/-- C7: counterexample to the literal invariant. A base package with
hand-edited ids 400 then 300 merges (with one extra slide) into a deck
whose ids are 400, 300, 401 — not strictly increasing, since the second
entry's id is smaller than the first's. -/
theorem c7_counterexample :
    merge_presentations 8 c7base [c7extra] = some c7out
    ∧ c7out.slides.map sldIdVal = [some 400, some 300, some 401]
    ∧ ¬ c7out.slides.Pairwise idLt := by
  refine ⟨by decide, by decide, fun hp => ?_⟩
  have hp' : ([(⟨some ("400".toList), some ("rId1".toList)⟩ : SldEntry),
      ⟨some ("300".toList), some ("rId2".toList)⟩,
      ⟨some ("401".toList), some ("rId1".toList)⟩]).Pairwise idLt := hp
  rcases List.pairwise_cons.mp hp' with ⟨hfirst, _⟩
  have hlt := hfirst _ (List.mem_cons_self _ _) 400 300 rfl rfl
  omega

end PptxMerger
